import Mathlib

/-!
Verification of the Google-Drive-Sync components.

This file gives a shallow embedding of the two source files
(`compare_folders/entry.js` and `execute_folder_copy/entry.js`) and proves or
refutes the frozen claims about them.  Remote listings are modelled as pure
lookups over an explicit drive state; pagination is abstracted to a single
page holding all matching records (the code follows `nextPageToken` until
exhaustion, so over a finite drive the sequence of pages is equivalent to one
complete page).  Wall-clock time (`Date.now()`) is modelled as a function from
a call counter (tick) to a timestamp, threaded through the state.
-/

set_option maxHeartbeats 1000000
set_option linter.unnecessarySeqFocus false

namespace GDriveSync

/-- The Drive mime type marking folders, as used verbatim in both source files. -/
def folderMime : String := "application/vnd.google-apps.folder"

/-! ### Compare component (`compare_folders/entry.js`)

`Entry` records are built by `getAllFilesInFolder` (lines 50-61 of the
source): id, name, slash-joined path, mimeType, size, modifiedTime,
md5Checksum and a computed `isFolder` flag. -/

structure CEntry where
  id : String
  name : String
  path : String
  mimeType : String
  size : Option Nat
  modifiedTime : Int
  md5Checksum : Option String
  isFolder : Bool
deriving DecidableEq

/-- A node of the source/destination tree as seen through the listing API:
the metadata of one child plus (for folders) its own children.  Children of a
non-folder node are never listed by the code and are ignored. -/
structure CNode where
  id : String
  name : String
  mimeType : String
  size : Option Nat
  modifiedTime : Int
  md5Checksum : Option String
  children : List CNode

/-- The entry record built for one listed child (source lines 51-61). -/
def entryOf (c : CNode) (base : String) : CEntry :=
  { id := c.id
    name := c.name
    path := if base = "" then c.name else base ++ "/" ++ c.name
    mimeType := c.mimeType
    size := c.size
    modifiedTime := c.modifiedTime
    md5Checksum := c.md5Checksum
    isFolder := c.mimeType == folderMime }

/-- The loop body of `getAllFilesInFolder` (source lines 50-76): walk the
children in listing order, accumulating folder entries and file entries in two
separate lists; a folder child contributes its recursively flattened subtree
to the *files* accumulator (line 71: `files.push(...subFiles)`). -/
def gatherEntries (cs : List CNode) (inc : Bool) (base : String) :
    List CEntry × List CEntry :=
  match cs with
  | [] => ([], [])
  | c :: rest =>
    let e := entryOf c base
    let here : List CEntry × List CEntry :=
      if e.isFolder then
        let sub :=
          if inc then
            let p := gatherEntries c.children inc e.path
            p.1 ++ p.2
          else []
        ([e], sub)
      else ([], [e])
    let there := gatherEntries rest inc base
    (here.1 ++ there.1, here.2 ++ there.2)
termination_by sizeOf cs
decreasing_by
  all_goals cases c
  all_goals simp
  all_goals omega

theorem gatherEntries_nil (inc : Bool) (base : String) :
    gatherEntries [] inc base = ([], []) := by
  rw [gatherEntries]

theorem gatherEntries_cons (c : CNode) (rest : List CNode) (inc : Bool) (base : String) :
    gatherEntries (c :: rest) inc base =
      (let e := entryOf c base
       let here : List CEntry × List CEntry :=
         if e.isFolder then
           let sub :=
             if inc then
               let p := gatherEntries c.children inc e.path
               p.1 ++ p.2
             else []
           ([e], sub)
         else ([], [e])
       let there := gatherEntries rest inc base
       (here.1 ++ there.1, here.2 ++ there.2)) := by
  rw [gatherEntries]

/-- `getAllFilesInFolder` (source line 81): `return [...folders, ...files]`. -/
def getAllFilesInFolder (cs : List CNode) (inc : Bool) (base : String) :
    List CEntry :=
  let p := gatherEntries cs inc base
  p.1 ++ p.2

/-- JavaScript truthiness of an optional string field: present and non-empty. -/
def optTruthy : Option String → Bool
  | none => false
  | some s => !(s == "")

/-- `isFileModified` (source lines 132-153): accumulate reason tags; the
JavaScript function returns the accumulated array when non-empty and `false`
otherwise, which we render as the (possibly empty) list of reasons. -/
def isFileModified (s d : CEntry) (cc : Bool) : List String :=
  (if d.modifiedTime < s.modifiedTime then ["newer_modification_time"] else [])
    ++ (if s.size ≠ d.size then ["different_size"] else [])
    ++ (if cc = true ∧ optTruthy s.md5Checksum = true ∧ optTruthy d.md5Checksum = true
          ∧ s.md5Checksum ≠ d.md5Checksum
        then ["different_content"] else [])

/-! A JavaScript `Map` built by repeated `set` calls: an existing key keeps
its position and gets the new value, a new key is appended. -/

abbrev PathMap := List (String × CEntry)

/-- One `map.set(k, v)` step. -/
def upsert (m : PathMap) (k : String) (v : CEntry) : PathMap :=
  match m with
  | [] => [(k, v)]
  | (k', v') :: rest => if k' = k then (k, v) :: rest else (k', v') :: upsert rest k v

/-- `files.forEach(file => map.set(file.path, file))` (source lines 89-90). -/
def buildMap (files : List CEntry) : PathMap :=
  files.foldl (fun m f => upsert m f.path f) []

/-- `map.get(k)` on the assembled map. -/
def mapLookup (m : PathMap) (k : String) : Option CEntry :=
  match m with
  | [] => none
  | (k', v) :: rest => if k' = k then some v else mapLookup rest k

/-- One modification record `{source, destination, reason}` (lines 106-110). -/
structure ModRec where
  source : CEntry
  destination : CEntry
  reason : List String
deriving DecidableEq

structure Comparison where
  additions : List CEntry
  modifications : List ModRec
  deletions : List CEntry
  unchanged : List CEntry
deriving DecidableEq

/-- The first loop of `compareFiles` (source lines 98-115): classify each
source-map entry as addition, modification or unchanged. -/
def classifySource (sm dm : PathMap) (cc : Bool) :
    List CEntry × List ModRec × List CEntry :=
  match sm with
  | [] => ([], [], [])
  | (p, s) :: rest =>
    let t := classifySource rest dm cc
    match mapLookup dm p with
    | none => (s :: t.1, t.2.1, t.2.2)
    | some d =>
      if isFileModified s d cc ≠ [] then
        (t.1, ⟨s, d, isFileModified s d cc⟩ :: t.2.1, t.2.2)
      else
        (t.1, t.2.1, s :: t.2.2)

/-- `compareFiles` (source lines 84-130). -/
def compareFiles (src dst : List CEntry) (cc : Bool) : Comparison :=
  let sm := buildMap src
  let dm := buildMap dst
  let amu := classifySource sm dm cc
  { additions := amu.1
    modifications := amu.2.1
    unchanged := amu.2.2
    deletions := (dm.filter (fun e => (mapLookup sm e.1).isNone)).map (·.2) }

/-! ### Sync plan (`generateSyncPlan`, source lines 155-189) -/

structure SyncAction where
  action : String
  entry : CEntry
  destEntry : Option CEntry
  reason : List String
  priority : Nat
deriving DecidableEq

/-- The unsorted action list in push order: additions, then modifications,
then deletions, with the priorities assigned on source lines 163, 174, 183. -/
def rawActions (c : Comparison) : List SyncAction :=
  (c.additions.map fun f =>
    { action := "create", entry := f, destEntry := none, reason := []
      priority := if f.isFolder then 1 else 2 })
  ++ (c.modifications.map fun m =>
    { action := "update", entry := m.source, destEntry := some m.destination
      reason := m.reason
      priority := if m.source.isFolder then 1 else 2 })
  ++ (c.deletions.map fun f =>
    { action := "delete", entry := f, destEntry := none, reason := []
      priority := if f.isFolder then 3 else 2 })

/-- Insert an action into an already sorted list, before the first element of
strictly greater priority and after all elements of smaller-or-equal position
in the input; this is the standard stable insertion step matching the stable
`Array.prototype.sort` with comparator `(a, b) => a.priority - b.priority`. -/
def insertAct (a : SyncAction) : List SyncAction → List SyncAction
  | [] => [a]
  | b :: rest =>
    if b.priority < a.priority then b :: insertAct a rest else a :: b :: rest

/-- Stable sort by priority. -/
def sortByPriority : List SyncAction → List SyncAction
  | [] => []
  | a :: rest => insertAct a (sortByPriority rest)

/-- `generateSyncPlan` (source lines 155-189). -/
def generateSyncPlan (c : Comparison) : List SyncAction :=
  sortByPriority (rawActions c)

/-! ### C3: ordering of the flattened enumeration -/

/-- The claim's ordering predicate, as a boolean: once a file entry occurs no
folder entry may follow, i.e. after dropping the leading folder block no
folder remains. -/
def foldersFirstB (l : List CEntry) : Bool :=
  ((l.dropWhile (·.isFolder)).filter (·.isFolder)).isEmpty

/-- The folder entries produced at the top level of one listing, in listing
order. -/
def directFolderEntries (cs : List CNode) (base : String) : List CEntry :=
  cs.filterMap fun c =>
    if (entryOf c base).isFolder then some (entryOf c base) else none

theorem gatherEntries_fst (cs : List CNode) (inc : Bool) (base : String) :
    (gatherEntries cs inc base).1 = directFolderEntries cs base := by
  induction cs with
  | nil => simp [gatherEntries_nil, directFolderEntries]
  | cons c rest ih =>
    rw [gatherEntries_cons]
    simp only [directFolderEntries, List.filterMap_cons]
    by_cases h : (entryOf c base).isFolder
    · simp only [h, if_pos]
      simp only [directFolderEntries] at ih
      simp [ih]
    · simp only [h]
      simp only [Bool.false_eq_true, if_false]
      simp only [directFolderEntries] at ih
      simp [ih, h]

theorem directFolderEntries_isFolder (cs : List CNode) (base : String) :
    ∀ e ∈ directFolderEntries cs base, e.isFolder = true := by
  intro e he
  simp only [directFolderEntries, List.mem_filterMap] at he
  obtain ⟨c, _, hc⟩ := he
  by_cases h : (entryOf c base).isFolder
  · simp [h] at hc; subst hc; exact h
  · simp [h] at hc

/-- A concrete three-node tree: the root lists a file `f` first, then a folder
`D` which itself contains a folder `E`. -/
def cexFile : CNode :=
  { id := "f", name := "f", mimeType := "text/plain", size := some 1
    modifiedTime := 0, md5Checksum := none, children := [] }

def cexInnerFolder : CNode :=
  { id := "E", name := "E", mimeType := folderMime, size := none
    modifiedTime := 0, md5Checksum := none, children := [] }

def cexOuterFolder : CNode :=
  { id := "D", name := "D", mimeType := folderMime, size := none
    modifiedTime := 0, md5Checksum := none, children := [cexInnerFolder] }

/-- C3 counterexample: on the tree above the flattened output is
`[D, f, E]` — the file `f` precedes the depth-2 folder `E`, so the claimed
all-folders-before-all-files ordering fails. -/
theorem getAllFiles_not_foldersFirst :
    foldersFirstB (getAllFilesInFolder [cexFile, cexOuterFolder] true "") = false
      ∧ (getAllFilesInFolder [cexFile, cexOuterFolder] true "").map (·.name)
          = ["D", "f", "E"] := by
  constructor
  · simp only [getAllFilesInFolder, cexFile, cexOuterFolder, cexInnerFolder,
      gatherEntries_cons, gatherEntries_nil]
    decide
  · simp only [getAllFilesInFolder, cexFile, cexOuterFolder, cexInnerFolder,
      gatherEntries_cons, gatherEntries_nil]
    decide

/-- C3 amended: the flattened list returned by `getAllFilesInFolder` places
the *immediate* subfolder entries of the listed folder (in listing order)
before every other entry; the global folders-before-files ordering holds only
per recursion level, not across levels. -/
theorem getAllFiles_directFoldersFirst (cs : List CNode) (inc : Bool) (base : String) :
    ∃ rest, getAllFilesInFolder cs inc base = directFolderEntries cs base ++ rest
      ∧ ∀ e ∈ directFolderEntries cs base, e.isFolder = true := by
  refine ⟨(gatherEntries cs inc base).2, ?_, directFolderEntries_isFolder cs base⟩
  rw [getAllFilesInFolder, gatherEntries_fst]

/-! ### C2: the modification predicate -/

/-- C2: `isFileModified` accumulates its three reason tags independently and
additively — `newer_modification_time` exactly when the source mtime is
strictly greater, `different_size` exactly when the sizes differ,
`different_content` exactly when deep compare is on, both hashes are truthy
and they differ — and reports unchanged (empty reason list) exactly when none
of the three conditions holds. -/
theorem isFileModified_spec (s d : CEntry) (cc : Bool) :
    ("newer_modification_time" ∈ isFileModified s d cc ↔ d.modifiedTime < s.modifiedTime)
    ∧ ("different_size" ∈ isFileModified s d cc ↔ s.size ≠ d.size)
    ∧ ("different_content" ∈ isFileModified s d cc ↔
        (cc = true ∧ optTruthy s.md5Checksum = true ∧ optTruthy d.md5Checksum = true
          ∧ s.md5Checksum ≠ d.md5Checksum))
    ∧ (isFileModified s d cc = [] ↔
        (¬ d.modifiedTime < s.modifiedTime ∧ s.size = d.size
          ∧ ¬ (cc = true ∧ optTruthy s.md5Checksum = true ∧ optTruthy d.md5Checksum = true
                ∧ s.md5Checksum ≠ d.md5Checksum))) := by
  unfold isFileModified
  by_cases h1 : d.modifiedTime < s.modifiedTime <;>
    by_cases h2 : s.size ≠ d.size <;>
      by_cases h3 : (cc = true ∧ optTruthy s.md5Checksum = true
          ∧ optTruthy d.md5Checksum = true ∧ s.md5Checksum ≠ d.md5Checksum) <;>
    simp [h1, h2, h3] <;> tauto

/-! ### C1: the four buckets partition the union of path sets -/

theorem upsert_keys_mem (m : PathMap) (k : String) (v : CEntry) (p : String) :
    p ∈ (upsert m k v).map Prod.fst ↔ p = k ∨ p ∈ m.map Prod.fst := by
  induction m with
  | nil => simp [upsert]
  | cons e rest ih =>
    obtain ⟨k', v'⟩ := e
    by_cases h : k' = k
    · subst h
      simp [upsert]
    · simp [upsert, h, ih]
      tauto

theorem upsert_keys_nodup (m : PathMap) (k : String) (v : CEntry)
    (hm : (m.map Prod.fst).Nodup) : ((upsert m k v).map Prod.fst).Nodup := by
  induction m with
  | nil => simp [upsert]
  | cons e rest ih =>
    obtain ⟨k', v'⟩ := e
    simp only [List.map_cons, List.nodup_cons] at hm
    by_cases h : k' = k
    · subst h
      simpa [upsert] using hm
    · simp only [upsert, h, if_false, List.map_cons, List.nodup_cons]
      refine ⟨?_, ih hm.2⟩
      rw [upsert_keys_mem]
      push_neg
      exact ⟨h, hm.1⟩

theorem upsert_wf (m : PathMap) (k : String) (v : CEntry) (hv : v.path = k)
    (hm : ∀ e ∈ m, e.2.path = e.1) : ∀ e ∈ upsert m k v, e.2.path = e.1 := by
  induction m with
  | nil =>
    intro e he
    simp [upsert] at he
    subst he
    exact hv
  | cons e0 rest ih =>
    obtain ⟨k', v'⟩ := e0
    intro e he
    by_cases h : k' = k
    · subst h
      simp [upsert] at he
      rcases he with he | he
      · subst he; exact hv
      · exact hm _ (List.mem_cons_of_mem _ he)
    · simp only [upsert, h, if_false, List.mem_cons] at he
      rcases he with he | he
      · subst he
        exact hm _ (List.mem_cons_self _ _)
      · exact ih (fun e' he' => hm _ (List.mem_cons_of_mem _ he')) e he

theorem buildMap_go (l : List CEntry) : ∀ m : PathMap,
    (((m.map Prod.fst).Nodup →
      ((l.foldl (fun m f => upsert m f.path f) m).map Prod.fst).Nodup))
    ∧ (∀ p, p ∈ (l.foldl (fun m f => upsert m f.path f) m).map Prod.fst ↔
        p ∈ m.map Prod.fst ∨ p ∈ l.map (·.path))
    ∧ ((∀ e ∈ m, e.2.path = e.1) →
        ∀ e ∈ l.foldl (fun m f => upsert m f.path f) m, e.2.path = e.1) := by
  induction l with
  | nil => intro m; simp
  | cons f rest ih =>
    intro m
    refine ⟨?_, ?_, ?_⟩
    · intro hm
      exact (ih (upsert m f.path f)).1 (upsert_keys_nodup m f.path f hm)
    · intro p
      rw [List.foldl_cons, (ih (upsert m f.path f)).2.1 p, upsert_keys_mem]
      simp
      tauto
    · intro hm
      exact (ih (upsert m f.path f)).2.2 (upsert_wf m f.path f rfl hm)

theorem buildMap_keys_nodup (l : List CEntry) : ((buildMap l).map Prod.fst).Nodup :=
  (buildMap_go l []).1 (by simp)

theorem buildMap_keys_mem (l : List CEntry) (p : String) :
    p ∈ (buildMap l).map Prod.fst ↔ p ∈ l.map (·.path) := by
  rw [buildMap, (buildMap_go l []).2.1 p]
  simp

theorem buildMap_wf (l : List CEntry) : ∀ e ∈ buildMap l, e.2.path = e.1 :=
  (buildMap_go l []).2.2 (by simp)

theorem mapLookup_isSome_iff (m : PathMap) (p : String) :
    (mapLookup m p).isSome = true ↔ p ∈ m.map Prod.fst := by
  induction m with
  | nil => simp [mapLookup]
  | cons e rest ih =>
    obtain ⟨k, v⟩ := e
    by_cases h : k = p
    · subst h; simp [mapLookup]
    · simp [mapLookup, h, ih, Ne.symm h]

theorem mapLookup_mem (m : PathMap) (p : String) (v : CEntry)
    (h : mapLookup m p = some v) : (p, v) ∈ m := by
  induction m with
  | nil => simp [mapLookup] at h
  | cons e rest ih =>
    obtain ⟨k, v'⟩ := e
    by_cases hk : k = p
    · subst hk
      simp [mapLookup] at h
      subst h
      exact List.mem_cons_self _ _
    · simp [mapLookup, hk] at h
      exact List.mem_cons_of_mem _ (ih h)

theorem nodup_keys_val_eq (m : PathMap) (hm : (m.map Prod.fst).Nodup)
    (k : String) (a b : CEntry) (ha : (k, a) ∈ m) (hb : (k, b) ∈ m) : a = b := by
  induction m with
  | nil => simp at ha
  | cons e rest ih =>
    obtain ⟨k', v'⟩ := e
    simp only [List.map_cons, List.nodup_cons] at hm
    rcases List.mem_cons.1 ha with ha' | ha' <;> rcases List.mem_cons.1 hb with hb' | hb'
    · rw [Prod.mk.injEq] at ha' hb'
      rw [ha'.2, hb'.2]
    · exfalso
      rw [Prod.mk.injEq] at ha'
      refine hm.1 ?_
      rw [← ha'.1]
      exact List.mem_map_of_mem Prod.fst hb'
    · exfalso
      rw [Prod.mk.injEq] at hb'
      refine hm.1 ?_
      rw [← hb'.1]
      exact List.mem_map_of_mem Prod.fst ha'
    · exact ih hm.2 ha' hb'

/-- Branch taken for a source-map entry: destination path absent. -/
def addCase (dm : PathMap) (e : String × CEntry) : Bool :=
  (mapLookup dm e.1).isNone

/-- Branch taken for a source-map entry: present on both sides and judged
modified. -/
def modCase (dm : PathMap) (cc : Bool) (e : String × CEntry) : Bool :=
  match mapLookup dm e.1 with
  | none => false
  | some d => decide (isFileModified e.2 d cc ≠ [])

/-- Branch taken for a source-map entry: present on both sides, unchanged. -/
def unchCase (dm : PathMap) (cc : Bool) (e : String × CEntry) : Bool :=
  match mapLookup dm e.1 with
  | none => false
  | some d => decide (isFileModified e.2 d cc = [])

theorem classifySource_paths (sm dm : PathMap) (cc : Bool)
    (hwf : ∀ e ∈ sm, e.2.path = e.1) :
    (classifySource sm dm cc).1.map (·.path) = (sm.filter (addCase dm)).map Prod.fst
    ∧ (classifySource sm dm cc).2.1.map (·.source.path)
        = (sm.filter (modCase dm cc)).map Prod.fst
    ∧ (classifySource sm dm cc).2.2.map (·.path)
        = (sm.filter (unchCase dm cc)).map Prod.fst := by
  induction sm with
  | nil => simp [classifySource]
  | cons e rest ih =>
    obtain ⟨p, s⟩ := e
    have hs : s.path = p := hwf (p, s) (List.mem_cons_self _ _)
    have ihr := ih (fun e' he' => hwf e' (List.mem_cons_of_mem _ he'))
    rcases hd : mapLookup dm p with _ | d
    · simp only [classifySource, hd, List.map_cons]
      simp only [addCase, modCase, unchCase, hd, List.filter_cons]
      simp [hs, ihr.1, ihr.2.1, ihr.2.2, addCase, modCase, unchCase]
    · by_cases hmod : isFileModified s d cc ≠ []
      · simp only [classifySource, hd, if_pos hmod]
        simp only [addCase, modCase, unchCase, hd, List.filter_cons]
        simp [hs, hmod, ihr.1, ihr.2.1, ihr.2.2, addCase, modCase, unchCase]
      · simp only [classifySource, hd, if_neg hmod]
        simp only [addCase, modCase, unchCase, hd, List.filter_cons]
        simp only [ne_eq, not_not] at hmod
        simp [hs, hmod, ihr.1, ihr.2.1, ihr.2.2, addCase, modCase, unchCase]

/-- The three source-side branch predicates are exhaustive and mutually
exclusive on every entry. -/
theorem cases_cover (dm : PathMap) (cc : Bool) (e : String × CEntry) :
    (addCase dm e = true ∨ modCase dm cc e = true ∨ unchCase dm cc e = true)
    ∧ ¬ (addCase dm e = true ∧ modCase dm cc e = true)
    ∧ ¬ (addCase dm e = true ∧ unchCase dm cc e = true)
    ∧ ¬ (modCase dm cc e = true ∧ unchCase dm cc e = true) := by
  rcases hd : mapLookup dm e.1 with _ | d
  · simp [addCase, modCase, unchCase, hd]
  · by_cases hmod : isFileModified e.2 d cc = [] <;>
      simp [addCase, modCase, unchCase, hd, hmod]

theorem filter_keys_subset (m : PathMap) (p : (String × CEntry) → Bool) (x : String)
    (hx : x ∈ (m.filter p).map Prod.fst) : x ∈ m.map Prod.fst := by
  rcases List.mem_map.1 hx with ⟨e, he, rfl⟩
  exact List.mem_map_of_mem Prod.fst (List.mem_of_mem_filter he)

theorem filter_keys_disjoint (m : PathMap) (hm : (m.map Prod.fst).Nodup)
    (p q : (String × CEntry) → Bool) (hpq : ∀ e ∈ m, ¬ (p e = true ∧ q e = true)) :
    ∀ x, x ∈ (m.filter p).map Prod.fst → x ∈ (m.filter q).map Prod.fst → False := by
  intro x hxp hxq
  rcases List.mem_map.1 hxp with ⟨e1, he1, h1⟩
  rcases List.mem_map.1 hxq with ⟨e2, he2, h2⟩
  rcases List.mem_filter.1 he1 with ⟨he1m, he1p⟩
  rcases List.mem_filter.1 he2 with ⟨he2m, he2p⟩
  have hv : e1.2 = e2.2 := by
    refine nodup_keys_val_eq m hm x e1.2 e2.2 ?_ ?_
    · rw [← h1]; exact he1m
    · rw [← h2]; exact he2m
  have he : e1 = e2 := Prod.ext (h1.trans h2.symm) hv
  exact hpq e1 he1m ⟨he1p, he ▸ he2p⟩

/-- C1: `compareFiles` partitions the union of the two path sets exactly:
listing the paths of the four buckets (additions, modifications, unchanged,
deletions) gives a duplicate-free list — so every path lies in exactly one
bucket — whose members are precisely the paths occurring in the source or
destination entry lists (keyed by path, last entry winning within one list). -/
theorem compareFiles_partition (src dst : List CEntry) (cc : Bool) :
    ((compareFiles src dst cc).additions.map (·.path)
      ++ (compareFiles src dst cc).modifications.map (·.source.path)
      ++ (compareFiles src dst cc).unchanged.map (·.path)
      ++ (compareFiles src dst cc).deletions.map (·.path)).Nodup
    ∧ ∀ p, (p ∈ (compareFiles src dst cc).additions.map (·.path)
          ++ (compareFiles src dst cc).modifications.map (·.source.path)
          ++ (compareFiles src dst cc).unchanged.map (·.path)
          ++ (compareFiles src dst cc).deletions.map (·.path)
        ↔ (p ∈ src.map (·.path) ∨ p ∈ dst.map (·.path))) := by
  have hsm := buildMap_keys_nodup src
  have hdm := buildMap_keys_nodup dst
  have hwfs := buildMap_wf src
  have hwfd := buildMap_wf dst
  have hcl := classifySource_paths (buildMap src) (buildMap dst) cc hwfs
  have hadd : (compareFiles src dst cc).additions.map (·.path)
      = ((buildMap src).filter (addCase (buildMap dst))).map Prod.fst := by
    simpa [compareFiles] using hcl.1
  have hmod : (compareFiles src dst cc).modifications.map (·.source.path)
      = ((buildMap src).filter (modCase (buildMap dst) cc)).map Prod.fst := by
    simpa [compareFiles] using hcl.2.1
  have hunch : (compareFiles src dst cc).unchanged.map (·.path)
      = ((buildMap src).filter (unchCase (buildMap dst) cc)).map Prod.fst := by
    simpa [compareFiles] using hcl.2.2
  have hdel : (compareFiles src dst cc).deletions.map (·.path)
      = ((buildMap dst).filter (addCase (buildMap src))).map Prod.fst := by
    show (((buildMap dst).filter (fun e => (mapLookup (buildMap src) e.1).isNone)).map
        (·.2)).map (·.path) = _
    rw [List.map_map]
    refine List.map_congr_left ?_
    intro e he
    exact hwfd e (List.mem_of_mem_filter he)
  -- membership in the source-side buckets is membership among source keys
  have hsrc3 : ∀ x, (x ∈ (compareFiles src dst cc).additions.map (·.path)
        ∨ x ∈ (compareFiles src dst cc).modifications.map (·.source.path)
        ∨ x ∈ (compareFiles src dst cc).unchanged.map (·.path))
      ↔ x ∈ (buildMap src).map Prod.fst := by
    intro x
    rw [hadd, hmod, hunch]
    constructor
    · rintro (hx | hx | hx) <;> exact filter_keys_subset _ _ x hx
    · intro hx
      rcases List.mem_map.1 hx with ⟨e, he, rfl⟩
      rcases (cases_cover (buildMap dst) cc e).1 with hc | hc | hc
      · exact Or.inl (List.mem_map_of_mem Prod.fst (List.mem_filter.2 ⟨he, hc⟩))
      · exact Or.inr (Or.inl (List.mem_map_of_mem Prod.fst (List.mem_filter.2 ⟨he, hc⟩)))
      · exact Or.inr (Or.inr (List.mem_map_of_mem Prod.fst (List.mem_filter.2 ⟨he, hc⟩)))
  have hdel_iff : ∀ x, x ∈ (compareFiles src dst cc).deletions.map (·.path)
      ↔ (x ∈ (buildMap dst).map Prod.fst ∧ x ∉ (buildMap src).map Prod.fst) := by
    intro x
    rw [hdel]
    constructor
    · intro hx
      refine ⟨filter_keys_subset _ _ x hx, ?_⟩
      rcases List.mem_map.1 hx with ⟨e, he, rfl⟩
      rcases List.mem_filter.1 he with ⟨_, hc⟩
      rw [addCase, Option.isNone_iff_eq_none] at hc
      intro hmem
      rw [← mapLookup_isSome_iff] at hmem
      rw [hc] at hmem
      simp at hmem
    · rintro ⟨hx, hnx⟩
      rcases List.mem_map.1 hx with ⟨e, he, rfl⟩
      refine List.mem_map_of_mem Prod.fst (List.mem_filter.2 ⟨he, ?_⟩)
      rw [addCase]
      rcases hl : mapLookup (buildMap src) e.1 with _ | v
      · rfl
      · exfalso
        refine hnx ?_
        rw [← mapLookup_isSome_iff, hl]
        rfl
  constructor
  · rw [hadd, hmod, hunch, hdel]
    have hA := (List.filter_sublist (l := buildMap src)
      (p := addCase (buildMap dst))).map Prod.fst |>.nodup hsm
    have hM := (List.filter_sublist (l := buildMap src)
      (p := modCase (buildMap dst) cc)).map Prod.fst |>.nodup hsm
    have hU := (List.filter_sublist (l := buildMap src)
      (p := unchCase (buildMap dst) cc)).map Prod.fst |>.nodup hsm
    have hD := (List.filter_sublist (l := buildMap dst)
      (p := addCase (buildMap src))).map Prod.fst |>.nodup hdm
    rw [List.nodup_append, List.nodup_append, List.nodup_append]
    refine ⟨⟨⟨hA, hM, ?_⟩, hU, ?_⟩, hD, ?_⟩
    · -- additions vs modifications
      intro x hxA hxM
      exact filter_keys_disjoint (buildMap src) hsm _ _
        (fun e _ => ((cases_cover (buildMap dst) cc e).2.1)) x hxA hxM
    · -- additions ++ modifications vs unchanged
      intro x hx hxU
      rcases List.mem_append.1 hx with hxA | hxM
      · exact filter_keys_disjoint (buildMap src) hsm _ _
          (fun e _ => ((cases_cover (buildMap dst) cc e).2.2.1)) x hxA hxU
      · exact filter_keys_disjoint (buildMap src) hsm _ _
          (fun e _ => ((cases_cover (buildMap dst) cc e).2.2.2)) x hxM hxU
    · -- the three source-side buckets vs deletions
      intro x hx hxD
      have hxs : x ∈ (buildMap src).map Prod.fst := by
        rcases List.mem_append.1 hx with hx' | hxU
        · rcases List.mem_append.1 hx' with hxA | hxM
          · exact filter_keys_subset _ _ x hxA
          · exact filter_keys_subset _ _ x hxM
        · exact filter_keys_subset _ _ x hxU
      have := (hdel_iff x).1 (by rw [hdel]; exact hxD)
      exact absurd hxs this.2
  · intro p
    have hiff := hsrc3 p
    have hdiff := hdel_iff p
    rw [buildMap_keys_mem] at hiff
    rw [buildMap_keys_mem, buildMap_keys_mem] at hdiff
    simp only [List.mem_append]
    constructor
    · rintro (((h | h) | h) | h)
      · exact Or.inl (hiff.1 (Or.inl h))
      · exact Or.inl (hiff.1 (Or.inr (Or.inl h)))
      · exact Or.inl (hiff.1 (Or.inr (Or.inr h)))
      · exact Or.inr (hdiff.1 h).1
    · intro h
      by_cases hs : p ∈ src.map (·.path)
      · rcases hiff.2 hs with h' | h' | h'
        · exact Or.inl (Or.inl (Or.inl h'))
        · exact Or.inl (Or.inl (Or.inr h'))
        · exact Or.inl (Or.inr h')
      · rcases h with h | h
        · exact absurd h hs
        · exact Or.inr (hdiff.2 ⟨h, hs⟩)

/-! ### C9: the sync plan ordering -/

theorem insertAct_mem (a : SyncAction) (l : List SyncAction) (x : SyncAction) :
    x ∈ insertAct a l ↔ x = a ∨ x ∈ l := by
  induction l with
  | nil => simp [insertAct]
  | cons b rest ih =>
    by_cases h : b.priority < a.priority
    · simp [insertAct, h, ih]
      try tauto
    · simp [insertAct, h]
      try tauto

theorem insertAct_perm (a : SyncAction) (l : List SyncAction) :
    (insertAct a l).Perm (a :: l) := by
  induction l with
  | nil => simp [insertAct]
  | cons b rest ih =>
    by_cases h : b.priority < a.priority
    · simp only [insertAct, h, if_pos]
      exact (ih.cons b).trans (List.Perm.swap a b rest)
    · simp [insertAct, h]

theorem insertAct_sorted (a : SyncAction) (l : List SyncAction)
    (hl : List.Pairwise (fun x y => x.priority ≤ y.priority) l) :
    List.Pairwise (fun x y => x.priority ≤ y.priority) (insertAct a l) := by
  induction l with
  | nil => simp [insertAct]
  | cons b rest ih =>
    rcases List.pairwise_cons.1 hl with ⟨hb, hrest⟩
    by_cases h : b.priority < a.priority
    · simp only [insertAct, h, if_pos]
      refine List.pairwise_cons.2 ⟨?_, ih hrest⟩
      intro x hx
      rcases (insertAct_mem a rest x).1 hx with hx' | hx'
      · subst hx'; exact Nat.le_of_lt h
      · exact hb x hx'
    · simp only [insertAct, h, if_neg, if_false]
      refine List.pairwise_cons.2 ⟨?_, hl⟩
      intro x hx
      rcases List.mem_cons.1 hx with hx' | hx'
      · subst hx'; exact Nat.le_of_not_lt h
      · exact Nat.le_trans (Nat.le_of_not_lt h) (hb x hx')

theorem insertAct_filter_eq (a : SyncAction) (l : List SyncAction) (k : Nat)
    (h : a.priority = k) :
    (insertAct a l).filter (fun x => x.priority == k)
      = a :: l.filter (fun x => x.priority == k) := by
  induction l with
  | nil => simp [insertAct, h]
  | cons b rest ih =>
    by_cases hb : b.priority < a.priority
    · have hbk : ¬ b.priority = k := by omega
      simp only [insertAct, hb, if_pos]
      rw [List.filter_cons, List.filter_cons]
      simp [hbk, ih]
    · simp only [insertAct, hb, if_neg, if_false]
      rw [List.filter_cons]
      simp [h]

theorem insertAct_filter_ne (a : SyncAction) (l : List SyncAction) (k : Nat)
    (h : a.priority ≠ k) :
    (insertAct a l).filter (fun x => x.priority == k)
      = l.filter (fun x => x.priority == k) := by
  induction l with
  | nil => simp [insertAct, h]
  | cons b rest ih =>
    by_cases hb : b.priority < a.priority
    · simp only [insertAct, hb, if_pos]
      rw [List.filter_cons, List.filter_cons]
      by_cases hbk : b.priority = k <;> simp [hbk, ih]
    · simp only [insertAct, hb, if_neg, if_false]
      rw [List.filter_cons]
      simp [h]

theorem sortByPriority_perm (l : List SyncAction) : (sortByPriority l).Perm l := by
  induction l with
  | nil => simp [sortByPriority]
  | cons a rest ih =>
    exact (insertAct_perm a (sortByPriority rest)).trans (ih.cons a)

theorem sortByPriority_sorted (l : List SyncAction) :
    List.Pairwise (fun x y => x.priority ≤ y.priority) (sortByPriority l) := by
  induction l with
  | nil => simp [sortByPriority]
  | cons a rest ih => exact insertAct_sorted a (sortByPriority rest) ih

theorem sortByPriority_filter (l : List SyncAction) (k : Nat) :
    (sortByPriority l).filter (fun x => x.priority == k)
      = l.filter (fun x => x.priority == k) := by
  induction l with
  | nil => simp [sortByPriority]
  | cons a rest ih =>
    by_cases h : a.priority = k
    · rw [sortByPriority, insertAct_filter_eq a _ k h, ih, List.filter_cons]
      simp [h]
    · rw [sortByPriority, insertAct_filter_ne a _ k h, ih, List.filter_cons]
      simp [h]

theorem rawActions_create_priority (c : Comparison) :
    ∀ a ∈ rawActions c, a.action = "create" →
      a.priority = if a.entry.isFolder = true then 1 else 2 := by
  intro a ha hc
  simp only [rawActions, List.mem_append, List.mem_map] at ha
  rcases ha with (⟨f, _, rfl⟩ | ⟨m, _, rfl⟩) | ⟨f, _, rfl⟩
  · by_cases hf : f.isFolder <;> simp [hf]
  · simp at hc
  · simp at hc

/-- C9: `generateSyncPlan` returns a permutation of the built action list
(additions first, then modifications, then deletions, with priority 1 for
folder creations/updates, 2 for file actions, 3 for folder deletions), sorted
non-decreasing by priority, stable within equal priority, and for any folder
addition F and file addition of the same comparison, F's create action sorts
strictly before the file's create action. -/
theorem generateSyncPlan_spec (c : Comparison) :
    (generateSyncPlan c).Perm (rawActions c)
    ∧ List.Pairwise (fun x y => x.priority ≤ y.priority) (generateSyncPlan c)
    ∧ (∀ k, (generateSyncPlan c).filter (fun x => x.priority == k)
        = (rawActions c).filter (fun x => x.priority == k))
    ∧ (∀ (i j : Fin (generateSyncPlan c).length),
        ((generateSyncPlan c).get i).priority < ((generateSyncPlan c).get j).priority →
          (i : Nat) < j)
    ∧ (∀ (i j : Fin (generateSyncPlan c).length),
        ((generateSyncPlan c).get i).action = "create" →
        ((generateSyncPlan c).get i).entry.isFolder = true →
        ((generateSyncPlan c).get j).action = "create" →
        ((generateSyncPlan c).get j).entry.isFolder = false →
          (i : Nat) < j) := by
  have hperm : (generateSyncPlan c).Perm (rawActions c) := sortByPriority_perm _
  have hsorted : List.Pairwise (fun x y => x.priority ≤ y.priority) (generateSyncPlan c) :=
    sortByPriority_sorted (rawActions c)
  have hpos : ∀ (i j : Fin (generateSyncPlan c).length),
      ((generateSyncPlan c).get i).priority < ((generateSyncPlan c).get j).priority →
        (i : Nat) < j := by
    intro i j hij
    by_contra hle
    push_neg at hle
    rcases Nat.lt_or_ge (j : Nat) i with hji | hji
    · have := (List.pairwise_iff_get.1 hsorted) j i (by exact hji)
      omega
    · have : (i : Nat) = j := by omega
      have : i = j := Fin.ext this
      subst this
      exact Nat.lt_irrefl _ hij
  refine ⟨hperm, hsorted, fun k => sortByPriority_filter (rawActions c) k, hpos, ?_⟩
  intro i j hci hfi hcj hfj
  have hmi : (generateSyncPlan c).get i ∈ rawActions c :=
    hperm.mem_iff.1 (List.get_mem _ _ _)
  have hmj : (generateSyncPlan c).get j ∈ rawActions c :=
    hperm.mem_iff.1 (List.get_mem _ _ _)
  have hpi := rawActions_create_priority c _ hmi hci
  have hpj := rawActions_create_priority c _ hmj hcj
  rw [hfi] at hpi
  rw [hfj] at hpj
  simp at hpi hpj
  refine hpos i j ?_
  simp only [List.get_eq_getElem]
  rw [hpi, hpj]
  omega

def cexFolderEntry : CEntry :=
  { id := "X", name := "X", path := "X", mimeType := folderMime, size := none
    modifiedTime := 0, md5Checksum := none, isFolder := true }

def cexFileEntry : CEntry :=
  { id := "g", name := "g", path := "X/g", mimeType := "text/plain", size := some 3
    modifiedTime := 0, md5Checksum := none, isFolder := false }

def cexCmp : Comparison := ⟨[cexFileEntry, cexFolderEntry], [], [], []⟩

theorem generateSyncPlan_spec_witness :
    (generateSyncPlan cexCmp).filter (fun x => x.priority == 1)
      = (rawActions cexCmp).filter (fun x => x.priority == 1) :=
  (generateSyncPlan_spec cexCmp).2.2.1 1

/-! ### Execute component (`execute_folder_copy/entry.js`)

The drive is one flat store of file/folder records (files and folders live in
the same listing namespace, distinguished by mime type, exactly as in the
Drive API).  The folder structure of the *source* side that
`createFolderStructureOptimized` walks is given as a finite tree of folder
nodes; its per-folder subfolder listing returns exactly the node's children.
Backend effects (`createFolder`, `copyFile`, `deleteFile`) mutate the store
and append to observation logs; `Date.now()` reads a time function at an
incrementing call counter. -/

structure GFile where
  id : Nat
  name : String
  parent : Nat
  mimeType : String
  trashed : Bool
  size : Nat
deriving DecidableEq

def isFolderFile (f : GFile) : Bool := f.mimeType == folderMime

/-- Source-side folder tree: folder id, folder name, subfolders. -/
inductive SrcTree where
  | node (id : Nat) (name : String) (subs : List SrcTree)

def SrcTree.id : SrcTree → Nat
  | node i _ _ => i

def SrcTree.name : SrcTree → String
  | node _ n _ => n

def SrcTree.subs : SrcTree → List SrcTree
  | node _ _ s => s

/-- The component's props (source lines 7-77). -/
structure Config where
  sourceFolderId : Option Nat
  sourceFileIds : List Nat
  destinationFolderId : Nat
  includeSubfolders : Bool
  conflictResolution : String
  preserveStructure : Bool
  batchSize : Nat
  maxConcurrency : Nat

/-- One issued `copyFile` backend call (observation log entry). -/
structure CopyCall where
  srcId : Nat
  origName : String
  newName : String
  parent : Nat
  ok : Bool
deriving DecidableEq

/-- One `{sourceId, destId, name, path}` record pushed by
`createFolderStructureOptimized` (source lines 148-153). -/
structure FolderRec where
  sourceId : Nat
  destId : Nat
  name : String
  path : String
deriving DecidableEq

structure DriveSt where
  allFiles : List GFile
  nextId : Nat
  tick : Nat
  timeFn : Nat → Nat
  failIds : List Nat
  folderCreateLog : List (String × Nat)
  recLog : List FolderRec
  copyLog : List CopyCall

/-- One `Date.now()` call. -/
def dateNow (st : DriveSt) : Nat × DriveSt :=
  (st.timeFn st.tick, { st with tick := st.tick + 1 })

/-- Listing query: subfolders of a folder
(`'<id>' in parents and mimeType = folder and trashed = false`). -/
def listFolderChildren (p : Nat) (st : DriveSt) : List GFile :=
  st.allFiles.filter fun f => f.parent == p && isFolderFile f && !f.trashed

/-- Listing query of `copyFilesOptimized` (source lines 249-251): with a
source id, non-folder non-trashed children of that folder; without one, every
non-folder non-trashed file in the drive. -/
def listNonFolderChildren (src : Option Nat) (st : DriveSt) : List GFile :=
  match src with
  | some p => st.allFiles.filter fun f => f.parent == p && !isFolderFile f && !f.trashed
  | none => st.allFiles.filter fun f => !isFolderFile f && !f.trashed

/-- `createFolder` backend call: allocates a fresh id, adds the folder record
under the given parent and logs the call. -/
def createFolder (name : String) (parentId : Nat) (st : DriveSt) : Nat × DriveSt :=
  (st.nextId,
   { st with
     allFiles := st.allFiles ++ [{ id := st.nextId, name := name, parent := parentId
                                   mimeType := folderMime, trashed := false, size := 0 }]
     nextId := st.nextId + 1
     folderCreateLog := st.folderCreateLog ++ [(name, parentId)] })

/-- `copyFile` backend call: fails (without mutating the listing) exactly for
source ids in `failIds`, otherwise creates the copy under the destination
folder; every issued call is logged. -/
def copyFile (f : GFile) (newName : String) (destId : Nat) (st : DriveSt) :
    Option Nat × DriveSt :=
  if f.id ∈ st.failIds then
    (none, { st with copyLog := st.copyLog ++ [⟨f.id, f.name, newName, destId, false⟩] })
  else
    (some st.nextId,
     { st with
       allFiles := st.allFiles ++ [{ id := st.nextId, name := newName, parent := destId
                                     mimeType := f.mimeType, trashed := false, size := f.size }]
       nextId := st.nextId + 1
       copyLog := st.copyLog ++ [⟨f.id, f.name, newName, destId, true⟩] })

/-- `deleteFile` backend call. -/
def deleteFile (fid : Nat) (st : DriveSt) : DriveSt :=
  { st with allFiles := st.allFiles.filter fun f => !(f.id == fid) }

/-- Lookup in a JavaScript `Map` built from an entry list: the last entry
with the key wins. -/
def lookupLast (m : List (String × Nat)) (k : String) : Option Nat :=
  match m with
  | [] => none
  | (k', v) :: rest =>
    match lookupLast rest k with
    | some r => some r
    | none => if k' = k then some v else none

def hasName (m : List (String × Nat)) (k : String) : Bool :=
  (lookupLast m k).isSome

/-- The loop of `createFolderStructureOptimized` (source lines 133-165) over
the subfolders of one source folder.  `exm` is the name-to-id map of the
folders listed under the destination parent at the start of the call and is
*not* refreshed after creations.  The `folderCache` is populated
(line 147) but never read.  `recLog` mirrors the `folders.push` calls. -/
def cfsoLoop (folders : List SrcTree) (exm : List (String × Nat)) (destParentId : Nat)
    (folderPath : String) (cache : List (Nat × Nat)) (inc : Bool) (st : DriveSt) :
    List FolderRec × List (Nat × Nat) × DriveSt :=
  match folders with
  | [] => ([], cache, st)
  | f :: rest =>
    let currentPath := if folderPath = "" then f.name else folderPath ++ "/" ++ f.name
    let drs : Nat × DriveSt :=
      match lookupLast exm f.name with
      | some i => (i, st)
      | none => createFolder f.name destParentId st
    let destFolderId := drs.1
    let cache1 := cache ++ [(f.id, destFolderId)]
    let rec0 : FolderRec := ⟨f.id, destFolderId, f.name, currentPath⟩
    let st2 := { drs.2 with recLog := drs.2.recLog ++ [rec0] }
    let sub : List FolderRec × List (Nat × Nat) × DriveSt :=
      if inc then
        let exm' := (listFolderChildren destFolderId st2).map fun g => (g.name, g.id)
        cfsoLoop f.subs exm' destFolderId currentPath cache1 inc st2
      else ([], cache1, st2)
    let rst := cfsoLoop rest exm destParentId folderPath sub.2.1 inc sub.2.2
    (rec0 :: (sub.1 ++ rst.1), rst.2)
termination_by sizeOf folders
decreasing_by
  all_goals cases f
  all_goals simp [SrcTree.subs]
  all_goals omega

/-- `createFolderStructureOptimized` (source lines 108-171): list the
destination parent's existing folders once, then process the source
subfolders. -/
def cfso (subs : List SrcTree) (destParentId : Nat) (folderPath : String)
    (cache : List (Nat × Nat)) (inc : Bool) (st : DriveSt) :
    List FolderRec × List (Nat × Nat) × DriveSt :=
  let exm := (listFolderChildren destParentId st).map fun g => (g.name, g.id)
  cfsoLoop subs exm destParentId folderPath cache inc st

/-- `getExistingFiles` (source lines 173-192): batched existence query over
the *first ten* candidate names only (`fileNames.slice(0, 10)`), scoped to
the destination folder and non-trashed entries. -/
def getExistingFiles (destFolderId : Nat) (fileNames : List String) (st : DriveSt) :
    List (String × Nat) :=
  if fileNames.isEmpty then []
  else
    (st.allFiles.filter fun f =>
      f.parent == destFolderId && !f.trashed && (fileNames.take 10).contains f.name).map
      fun f => (f.name, f.id)

/-! Conflict-resolution rename (source lines 204-207): split the colliding
name at its last dot (`lastIndexOf`/`split(".").pop()`), insert
`_copy_<Date.now()>` before the extension, keeping the extension only when it
is non-empty (JavaScript truthiness of the extension string). -/

/-- The characters after the last dot. -/
def afterLastDot (l : List Char) : List Char :=
  (l.reverse.takeWhile fun c => !(c == '.')).reverse

/-- `substring(0, lastIndexOf('.'))`: the characters before the last dot. -/
def beforeLastDot (l : List Char) : List Char :=
  ((l.reverse.dropWhile fun c => !(c == '.')).drop 1).reverse

def digitCh : Nat → Char
  | 0 => '0'
  | 1 => '1'
  | 2 => '2'
  | 3 => '3'
  | 4 => '4'
  | 5 => '5'
  | 6 => '6'
  | 7 => '7'
  | 8 => '8'
  | _ => '9'

/-- Decimal rendering, fuel-indexed so that it is structurally recursive;
the fuel is always sufficient since `n / 10 < n`. -/
def natDigitsAux : Nat → Nat → List Char
  | 0, n => [digitCh n]
  | fuel + 1, n =>
    if n < 10 then [digitCh n] else natDigitsAux fuel (n / 10) ++ [digitCh (n % 10)]

/-- Decimal rendering of the timestamp (the `${timestamp}` interpolation). -/
def natDigits (n : Nat) : List Char := natDigitsAux n n

def copySep : List Char := "_copy_".data

/-- The `_copy_<timestamp>` infix inserted by the rename policy. -/
def copyToken (ts : Nat) : List Char := copySep ++ natDigits ts

def renameChars (nm : List Char) (ts : Nat) : List Char :=
  let ext := if nm.contains '.' then afterLastDot nm else []
  let base := if nm.contains '.' then beforeLastDot nm else nm
  if ext.isEmpty then base ++ copyToken ts
  else base ++ copyToken ts ++ ('.' :: ext)

def renameName (s : String) (ts : Nat) : String := ⟨renameChars s.data ts⟩

structure CopyRec where
  originalName : String
  newName : String
  originalId : Nat
  newId : Nat
  size : Nat
  mimeType : String
deriving DecidableEq

structure ErrRec where
  file : String
  error : String
  type : String
deriving DecidableEq

/-- The three shapes of a settled per-file task value (source lines 200-237):
`{success:true, skipped:true, file}`, the copied-file record, or
`{success:false, file, error, type}`. -/
inductive TaskRes where
  | skipped (f : GFile)
  | copied (r : CopyRec)
  | failed (e : ErrRec)
deriving DecidableEq

/-- One task of `copyFileBatch` (source lines 195-238): conflict resolution
before the copy call, per-file try/catch around the backend copy. -/
def copyFileTask (cfg : Config) (f : GFile) (destFolderId : Nat)
    (exm : List (String × Nat)) (st : DriveSt) : TaskRes × DriveSt :=
  let fileExists := hasName exm f.name
  if fileExists && cfg.conflictResolution == "skip" then
    (.skipped f, st)
  else
    let ren : String × DriveSt :=
      if fileExists && cfg.conflictResolution == "rename" then
        let t := dateNow st
        (renameName f.name t.1, t.2)
      else (f.name, st)
    let st2 :=
      if fileExists && cfg.conflictResolution == "replace" then
        match lookupLast exm f.name with
        | some fid => deleteFile fid ren.2
        | none => ren.2
      else ren.2
    let res := copyFile f ren.1 destFolderId st2
    match res.1 with
    | some newId => (.copied ⟨f.name, ren.1, f.id, newId, f.size, f.mimeType⟩, res.2)
    | none => (.failed ⟨f.name, "backend error", "file_copy_error"⟩, res.2)

/-- `copyFileBatch` + `limitConcurrency` (source lines 98-106, 194-241): the
tasks of one batch all settle before the batch completes; the cooperative
single-threaded interleaving is linearized in file order, and `allSettled`
preserves task order in the result list. -/
def copyFileBatch (cfg : Config) (files : List GFile) (destFolderId : Nat)
    (exm : List (String × Nat)) (st : DriveSt) : List TaskRes × DriveSt :=
  match files with
  | [] => ([], st)
  | f :: rest =>
    let r := copyFileTask cfg f destFolderId exm st
    let rs := copyFileBatch cfg rest destFolderId exm r.2
    (r.1 :: rs.1, rs.2)

/-- One `{name, id, path}` record of `results.createdFolders`
(source lines 353-357). -/
structure CreatedFolderRec where
  name : String
  id : Nat
  path : String
deriving DecidableEq

/-- The mutable `results` accumulator of `run` (source lines 318-324). -/
structure ExecResults where
  foldersCreated : Nat
  filesCopied : Nat
  errors : List ErrRec
  copiedFiles : List CopyRec
  createdFolders : List CreatedFolderRec
deriving DecidableEq

/-- Result processing of one batch (source lines 279-294): a successful
non-skipped value increments `filesCopied` and is pushed to `copiedFiles`; a
skipped value is passed through; a failed value is pushed to `errors`. -/
def applyBatchResults (lst : List TaskRes) (results : ExecResults) : ExecResults :=
  match lst with
  | [] => results
  | .copied r :: rest =>
    applyBatchResults rest
      { results with
        filesCopied := results.filesCopied + 1
        copiedFiles := results.copiedFiles ++ [r] }
  | .skipped _ :: rest => applyBatchResults rest results
  | .failed e :: rest =>
    applyBatchResults rest { results with errors := results.errors ++ [e] }

/-- The batch split of `processInBatches` (source lines 83-96):
`slice(i, i + batchSize)` chunks.  A zero batch size would loop forever in
the source; the component bounds it to at least 1, and the model returns no
chunks in that unreachable case. -/
def chunkListAux : Nat → List GFile → Nat → List (List GFile)
  | 0, _, _ => []
  | fuel + 1, l, n =>
    if l.isEmpty ∨ n = 0 then []
    else l.take n :: chunkListAux fuel (l.drop n) n

def chunkList (l : List GFile) (n : Nat) : List (List GFile) :=
  chunkListAux l.length l n

theorem chunkListAux_nil (f n : Nat) : chunkListAux f [] n = [] := by
  cases f <;> simp [chunkListAux]

theorem chunkListAux_congr (f1 : Nat) : ∀ (f2 : Nat) (l : List GFile) (n : Nat),
    l.length ≤ f1 → l.length ≤ f2 → chunkListAux f1 l n = chunkListAux f2 l n := by
  induction f1 with
  | zero =>
    intro f2 l n h1 _
    have : l = [] := List.eq_nil_of_length_eq_zero (Nat.le_zero.1 h1)
    subst this
    rw [chunkListAux_nil, chunkListAux_nil]
  | succ f1 ih =>
    intro f2 l n h1 h2
    rcases l with _ | ⟨a, l'⟩
    · rw [chunkListAux_nil, chunkListAux_nil]
    · rcases f2 with _ | f2'
      · simp at h2
      · rw [chunkListAux, chunkListAux]
        by_cases h : (a :: l').isEmpty ∨ n = 0
        · rw [if_pos h, if_pos h]
        · rw [if_neg h, if_neg h]
          congr 1
          push_neg at h
          refine ih f2' _ n ?_ ?_ <;> simp at h1 h2 ⊢ <;> omega

/-- The recurrence of the batch split, as written in the source loop. -/
theorem chunkList_eq (l : List GFile) (n : Nat) :
    chunkList l n
      = if l.isEmpty ∨ n = 0 then [] else l.take n :: chunkList (l.drop n) n := by
  rcases l with _ | ⟨a, l'⟩
  · simp [chunkList, chunkListAux_nil]
  · rw [chunkList, List.length_cons, chunkListAux]
    by_cases h : (a :: l').isEmpty ∨ n = 0
    · rw [if_pos h, if_pos h]
    · rw [if_neg h, if_neg h]
      congr 1
      rw [chunkList]
      push_neg at h
      refine chunkListAux_congr l'.length _ _ n ?_ (Nat.le_refl _)
      simp
      omega

/-- Drive the chunks through `copyFileBatch` and fold the settled results
into the accumulator (source lines 272-300). -/
def processBatches (cfg : Config) (chunks : List (List GFile)) (destFolderId : Nat)
    (exm : List (String × Nat)) (results : ExecResults) (st : DriveSt) :
    ExecResults × DriveSt :=
  match chunks with
  | [] => (results, st)
  | b :: rest =>
    let r := copyFileBatch cfg b destFolderId exm st
    processBatches cfg rest destFolderId exm (applyBatchResults r.1 results) r.2

/-- The candidate files of one `copyFilesOptimized` page (source lines
249-264): the listing query, then the optional `sourceFileIds` filter. -/
def copyCandidates (sourceId : Option Nat) (cfg : Config) (st : DriveSt) : List GFile :=
  let page := listNonFolderChildren sourceId st
  if cfg.sourceFileIds.length > 0 then
    page.filter fun f => cfg.sourceFileIds.contains f.id
  else page

/-- The pre-fetched existing-name map of one page (source lines 268-269). -/
def existingNameMap (sourceId : Option Nat) (destFolderId : Nat) (cfg : Config)
    (st : DriveSt) : List (String × Nat) :=
  getExistingFiles destFolderId ((copyCandidates sourceId cfg st).map (·.name)) st

/-- `copyFilesOptimized` (source lines 243-315). -/
def copyFilesOptimized (cfg : Config) (sourceId : Option Nat) (destFolderId : Nat)
    (results : ExecResults) (st : DriveSt) : ExecResults × DriveSt :=
  let filesToProcess := copyCandidates sourceId cfg st
  if filesToProcess.isEmpty then (results, st)
  else
    let exm := existingNameMap sourceId destFolderId cfg st
    processBatches cfg (chunkList filesToProcess cfg.batchSize) destFolderId exm results st

structure RunStats where
  foldersCreated : Nat
  filesCopied : Nat
  errorsCount : Nat
deriving DecidableEq

structure RunDetails where
  copiedFiles : List CopyRec
  createdFolders : List CreatedFolderRec
  errors : List ErrRec
deriving DecidableEq

/-- The structured object returned by `run`: the success shape (source lines
393-410) carries the detail lists (sliced), the catch shape (lines 418-428)
carries only the three counts as `partialResults`, no detail lists. -/
structure RunResult where
  success : Bool
  error : Option String
  stats : RunStats
  details : Option RunDetails
deriving DecidableEq

def timeoutMs : Nat := 270000

def timeoutMsg : String :=
  "Operation timeout - consider reducing batch size or using smaller file sets"

/-- `checkTimeout` (source lines 333-337).  Natural-number truncation of the
difference agrees with JavaScript here: a negative difference is never
greater than the limit. -/
def checkTimeout (startTime : Nat) (st : DriveSt) : Bool × DriveSt :=
  let t := dateNow st
  (decide (t.1 - startTime > timeoutMs), t.2)

/-- The catch branch of `run` (source lines 412-428): `success: false`, the
error message, `partialResults` counts, no detail lists; `Date.now()` is
consulted once more for the duration string. -/
def timeoutResult (results : ExecResults) (st : DriveSt) : RunResult × DriveSt :=
  let t := dateNow st
  ({ success := false
     error := some timeoutMsg
     stats := ⟨results.foldersCreated, results.filesCopied, results.errors.length⟩
     details := none }, t.2)

/-- The success return of `run` (source lines 393-410), with the
`slice(0, 100)` / `slice(0, 50)` output caps. -/
def successResult (results : ExecResults) (st : DriveSt) : RunResult × DriveSt :=
  let t := dateNow st
  ({ success := true
     error := none
     stats := ⟨results.foldersCreated, results.filesCopied, results.errors.length⟩
     details := some ⟨results.copiedFiles.take 100, results.createdFolders,
                      results.errors.take 50⟩ }, t.2)

/-- The per-subfolder copy loop of `run` (source lines 368-378), with its
leading `checkTimeout()` each iteration; returns whether the timeout
tripped. -/
def subfolderLoop (cfg : Config) (folders : List FolderRec) (startTime : Nat)
    (results : ExecResults) (st : DriveSt) : Bool × ExecResults × DriveSt :=
  match folders with
  | [] => (false, results, st)
  | f :: rest =>
    let c := checkTimeout startTime st
    if c.1 then (true, results, c.2)
    else
      let r := copyFilesOptimized cfg (some f.sourceId) f.destId results c.2
      subfolderLoop cfg rest startTime r.1 r.2

/-- `run` (source lines 317-430).  `srcSubs` is the subfolder forest of the
configured source folder, consumed by the folder-structure phase. -/
def run (cfg : Config) (srcSubs : List SrcTree) (st : DriveSt) : RunResult × DriveSt :=
  let results0 : ExecResults := ⟨0, 0, [], [], []⟩
  let s := dateNow st
  let startTime := s.1
  if cfg.preserveStructure && cfg.sourceFolderId.isSome then
    let c1 := checkTimeout startTime s.2
    if c1.1 then timeoutResult results0 c1.2
    else
      let fo := cfso srcSubs cfg.destinationFolderId "" [] cfg.includeSubfolders c1.2
      let results1 :=
        { results0 with
          foldersCreated := fo.1.length
          createdFolders := fo.1.map fun f => ⟨f.name, f.destId, f.path⟩ }
      let c2 := checkTimeout startTime fo.2.2
      if c2.1 then timeoutResult results1 c2.2
      else
        let r1 := copyFilesOptimized cfg cfg.sourceFolderId cfg.destinationFolderId
          results1 c2.2
        let c3 := checkTimeout startTime r1.2
        if c3.1 then timeoutResult r1.1 c3.2
        else
          let lp := subfolderLoop cfg fo.1 startTime r1.1 c3.2
          if lp.1 then timeoutResult lp.2.1 lp.2.2
          else successResult lp.2.1 lp.2.2
  else
    let c1 := checkTimeout startTime s.2
    if c1.1 then timeoutResult results0 c1.2
    else
      let r1 := copyFilesOptimized cfg cfg.sourceFolderId cfg.destinationFolderId
        results0 c1.2
      successResult r1.1 r1.2

/-! ### C8: the conflict-resolution rename -/

theorem digitCh_ne_dot (k : Nat) : ¬ digitCh k = '.' := by
  unfold digitCh
  split <;> decide

theorem natDigitsAux_ne_dot (fuel : Nat) : ∀ n, '.' ∉ natDigitsAux fuel n := by
  induction fuel with
  | zero =>
    intro n
    simp only [natDigitsAux, List.mem_singleton]
    exact fun h => digitCh_ne_dot n h.symm
  | succ fuel ih =>
    intro n
    rw [natDigitsAux]
    by_cases h : n < 10
    · simp only [h, if_pos, List.mem_singleton]
      exact fun h' => digitCh_ne_dot n h'.symm
    · simp only [h, if_false, List.mem_append, List.mem_singleton]
      push_neg
      exact ⟨ih _, fun h' => digitCh_ne_dot _ h'.symm⟩

theorem mem_takeWhile_pred (p : Char → Bool) (l : List Char) (a : Char)
    (h : a ∈ l.takeWhile p) : p a = true := by
  induction l with
  | nil => simp [List.takeWhile] at h
  | cons x xs ih =>
    rw [List.takeWhile_cons] at h
    by_cases hx : p x = true
    · rw [if_pos hx] at h
      rcases List.mem_cons.1 h with h' | h'
      · subst h'; exact hx
      · exact ih h'
    · rw [if_neg hx] at h
      simp at h

theorem dot_not_mem_afterLastDot (l : List Char) : '.' ∉ afterLastDot l := by
  intro h
  rw [afterLastDot, List.mem_reverse] at h
  have := mem_takeWhile_pred _ _ _ h
  simp at this

theorem takeWhile_append_sat (p : Char → Bool) (xs ys : List Char) (y : Char)
    (hxs : ∀ x ∈ xs, p x = true) (hy : p y = false) :
    (xs ++ y :: ys).takeWhile p = xs := by
  induction xs with
  | nil => simp [List.takeWhile_cons, hy]
  | cons x xs' ih =>
    rw [List.cons_append, List.takeWhile_cons,
      if_pos (hxs x (List.mem_cons_self _ _))]
    rw [ih fun x' hx' => hxs x' (List.mem_cons_of_mem _ hx')]

theorem afterLastDot_append (a e : List Char) (he : '.' ∉ e) :
    afterLastDot (a ++ '.' :: e) = e := by
  rw [afterLastDot, List.reverse_append]
  have h1 : ('.' :: e).reverse ++ a.reverse = e.reverse ++ '.' :: a.reverse := by simp
  rw [h1, takeWhile_append_sat _ _ _ _ ?hx (by simp)]
  · simp
  case hx =>
    intro x hx
    have hxe : x ∈ e := List.mem_reverse.1 hx
    simp only [Bool.not_eq_true']
    rw [beq_eq_false_iff_ne]
    exact fun hEq => he (hEq ▸ hxe)

theorem takeWhile_dropWhile_split (r : List Char) (hr : '.' ∈ r) :
    r = r.takeWhile (fun c => !(c == '.')) ++
      '.' :: (r.dropWhile (fun c => !(c == '.'))).drop 1 := by
  induction r with
  | nil => simp at hr
  | cons c r' ih =>
    by_cases hc : c = '.'
    · subst hc
      simp [List.takeWhile_cons, List.dropWhile_cons]
    · have hpc : (fun c => !(c == '.')) c = true := by
        simp only [Bool.not_eq_true']
        rw [beq_eq_false_iff_ne]
        exact hc
      have hr' : '.' ∈ r' := by
        rcases List.mem_cons.1 hr with h | h
        · exact absurd h.symm hc
        · exact h
      rw [List.takeWhile_cons, if_pos hpc, List.dropWhile_cons, if_pos hpc]
      rw [List.cons_append]
      rw [← ih hr']

theorem splitLastDot (l : List Char) (h : '.' ∈ l) :
    l = beforeLastDot l ++ '.' :: afterLastDot l := by
  have hr : '.' ∈ l.reverse := List.mem_reverse.2 h
  have key := takeWhile_dropWhile_split l.reverse hr
  conv_lhs => rw [← List.reverse_reverse l]
  conv_lhs => rw [key]
  rw [List.reverse_append]
  simp [beforeLastDot, afterLastDot]

theorem copyToken_occurs (nm : List Char) (ts : Nat) :
    copyToken ts <:+: renameChars nm ts := by
  rw [renameChars]
  by_cases h1 : nm.contains '.'
  · simp only [h1, if_pos]
    by_cases h2 : (afterLastDot nm).isEmpty
    · simp only [h2, if_pos]
      exact ⟨beforeLastDot nm, [], by simp⟩
    · simp only [h2, if_false]
      exact ⟨beforeLastDot nm, '.' :: afterLastDot nm, by simp⟩
  · simp only [h1, Bool.false_eq_true, if_false, List.isEmpty_nil, if_pos]
    exact ⟨nm, [], by simp⟩

def renameCexNames : List String := ["a.txt", "a_copy_5.txt"]

/-- C8 counterexample: with existing names `{a.txt, a_copy_5.txt}` and a copy
of `a.txt` renamed at timestamp 5, the synthesized name `a_copy_5.txt` is a
member of the pre-fetched existing-name set, refuting the claimed
distinctness. -/
theorem renameName_cex :
    renameName ("a.txt") 5 = "a_copy_5.txt"
    ∧ "a.txt" ∈ renameCexNames
    ∧ renameName ("a.txt") 5 ∈ renameCexNames := by
  refine ⟨by decide, by decide, by decide⟩

/-- C8 amended: the rename policy synthesizes `base_copy_<timestamp>[.ext]`;
it preserves a non-empty original extension, and it is distinct from every
name in the pre-fetched existing set *provided* no existing name already
contains the `_copy_<timestamp>` infix for the current timestamp (the code
never re-checks the synthesized name against the set, so such a pre-existing
name defeats distinctness). -/
theorem renameName_spec (name : String) (ts : Nat) (names : List String)
    (h : ∀ m ∈ names, ¬ (copyToken ts <:+: m.data)) :
    renameName name ts ∉ names
    ∧ (name.data.contains '.' = true → afterLastDot name.data ≠ [] →
        afterLastDot (renameName name ts).data = afterLastDot name.data) := by
  constructor
  · intro hmem
    exact h _ hmem (copyToken_occurs name.data ts)
  · intro hdot hext
    show afterLastDot (renameChars name.data ts) = afterLastDot name.data
    rw [renameChars]
    simp only [hdot, if_pos]
    have hie : (afterLastDot name.data).isEmpty = false := by
      rcases he : afterLastDot name.data with _ | ⟨c, e'⟩
      · exact absurd he hext
      · simp
    rw [hie]
    simp only [Bool.false_eq_true, if_false]
    have hassoc : beforeLastDot name.data ++ copyToken ts ++ '.' :: afterLastDot name.data
        = (beforeLastDot name.data ++ copyToken ts) ++ '.' :: afterLastDot name.data := by
      simp
    rw [hassoc, afterLastDot_append _ _ (dot_not_mem_afterLastDot name.data)]

/-- C8 amended witness: an instantiation with colliding name `a.txt` and
timestamp 7 against a set free of the `_copy_7` infix. -/
theorem renameName_spec_witness :
    renameName ("a.txt") 7 ∉ ["a.txt", "b.txt", "a_copy_5.txt"]
    ∧ (("a.txt" : String).data.contains '.' = true →
        afterLastDot ("a.txt" : String).data ≠ [] →
        afterLastDot (renameName ("a.txt") 7).data = afterLastDot ("a.txt" : String).data) :=
  renameName_spec ("a.txt") 7 ["a.txt", "b.txt", "a_copy_5.txt"] (by decide)

/-! ### Plumbing lemmas for the file-copy path -/

/-- The skip branch of a task is taken exactly when the name is in the
pre-fetched map and the policy is `skip`. -/
def isSkipCase (cfg : Config) (exm : List (String × Nat)) (f : GFile) : Prop :=
  hasName exm f.name = true ∧ cfg.conflictResolution = "skip"

instance (cfg : Config) (exm : List (String × Nat)) (f : GFile) :
    Decidable (isSkipCase cfg exm f) := by
  unfold isSkipCase
  infer_instance

def countOk (l : List CopyCall) : Nat := (l.filter (·.ok)).length

def countFail (l : List CopyCall) : Nat := (l.filter fun e => !e.ok).length

def TaskRes.isCopiedRes : TaskRes → Bool
  | .copied _ => true
  | _ => false

def TaskRes.isFailedRes : TaskRes → Bool
  | .failed _ => true
  | _ => false

def extractErrs (lst : List TaskRes) : List ErrRec :=
  lst.filterMap fun t => match t with | .failed e => some e | _ => none

def extractCopies (lst : List TaskRes) : List CopyRec :=
  lst.filterMap fun t => match t with | .copied r => some r | _ => none

theorem countOk_append (a b : List CopyCall) : countOk (a ++ b) = countOk a + countOk b := by
  simp [countOk]

theorem countFail_append (a b : List CopyCall) :
    countFail (a ++ b) = countFail a + countFail b := by
  simp [countFail]

theorem copyFileTask_spec (cfg : Config) (f : GFile) (d : Nat)
    (exm : List (String × Nat)) (st : DriveSt) :
    (copyFileTask cfg f d exm st).2.failIds = st.failIds
    ∧ (copyFileTask cfg f d exm st).2.recLog = st.recLog
    ∧ (copyFileTask cfg f d exm st).2.folderCreateLog = st.folderCreateLog
    ∧ (copyFileTask cfg f d exm st).2.timeFn = st.timeFn
    ∧ (isSkipCase cfg exm f →
        (copyFileTask cfg f d exm st).1 = .skipped f
          ∧ (copyFileTask cfg f d exm st).2.copyLog = st.copyLog)
    ∧ (¬ isSkipCase cfg exm f → f.id ∈ st.failIds →
        (copyFileTask cfg f d exm st).1
            = .failed ⟨f.name, "backend error", "file_copy_error"⟩
          ∧ ∃ nn, (copyFileTask cfg f d exm st).2.copyLog
              = st.copyLog ++ [⟨f.id, f.name, nn, d, false⟩])
    ∧ (¬ isSkipCase cfg exm f → f.id ∉ st.failIds →
        ∃ nn nid, (copyFileTask cfg f d exm st).1
            = .copied ⟨f.name, nn, f.id, nid, f.size, f.mimeType⟩
          ∧ (copyFileTask cfg f d exm st).2.copyLog
              = st.copyLog ++ [⟨f.id, f.name, nn, d, true⟩]) := by
  by_cases hex : hasName exm f.name
  · by_cases hskip : cfg.conflictResolution = "skip"
    · have hsc : isSkipCase cfg exm f := ⟨hex, hskip⟩
      simp only [copyFileTask, hex, hskip]
      simp [isSkipCase, hex, hskip]
    · have hsc : ¬ isSkipCase cfg exm f := fun h => hskip h.2
      by_cases hren : cfg.conflictResolution = "rename"
      · by_cases hfail : f.id ∈ st.failIds
        · simp only [copyFileTask, copyFile, dateNow, hex, hskip, hren, hfail]
          simp [isSkipCase, hskip, hren, hfail, hex]
        · simp only [copyFileTask, copyFile, dateNow, hex, hskip, hren, hfail]
          simp [isSkipCase, hskip, hren, hfail, hex]
      · by_cases hrep : cfg.conflictResolution = "replace"
        · rcases hlk : lookupLast exm f.name with _ | fid
          · rw [hasName, hlk] at hex
            simp at hex
          · by_cases hfail : f.id ∈ st.failIds
            · simp only [copyFileTask, copyFile, deleteFile, hex, hskip, hren, hrep, hlk, hfail]
              simp [isSkipCase, hskip, hren, hrep, hfail, hex]
            · simp only [copyFileTask, copyFile, deleteFile, hex, hskip, hren, hrep, hlk, hfail]
              simp [isSkipCase, hskip, hren, hrep, hfail, hex]
        · by_cases hfail : f.id ∈ st.failIds
          · simp only [copyFileTask, copyFile, hex, hskip, hren, hrep, hfail]
            simp [isSkipCase, hskip, hren, hrep, hfail, hex]
          · simp only [copyFileTask, copyFile, hex, hskip, hren, hrep, hfail]
            simp [isSkipCase, hskip, hren, hrep, hfail, hex]
  · have hsc : ¬ isSkipCase cfg exm f := fun h => hex h.1
    by_cases hfail : f.id ∈ st.failIds
    · simp only [copyFileTask, copyFile, hex, hfail]
      simp [isSkipCase, hex, hfail]
    · simp only [copyFileTask, copyFile, hex, hfail]
      simp [isSkipCase, hex, hfail]

def countCopied (lst : List TaskRes) : Nat := (lst.filter (·.isCopiedRes)).length

def countFailedT (lst : List TaskRes) : Nat := (lst.filter (·.isFailedRes)).length

theorem countOk_cons_false (e : CopyCall) (l : List CopyCall) (h : e.ok = false) :
    countOk (e :: l) = countOk l := by
  simp [countOk, List.filter_cons, h]

theorem countOk_cons_true (e : CopyCall) (l : List CopyCall) (h : e.ok = true) :
    countOk (e :: l) = countOk l + 1 := by
  simp [countOk, List.filter_cons, h]

theorem countFail_cons_false (e : CopyCall) (l : List CopyCall) (h : e.ok = false) :
    countFail (e :: l) = countFail l + 1 := by
  simp [countFail, List.filter_cons, h]

theorem countFail_cons_true (e : CopyCall) (l : List CopyCall) (h : e.ok = true) :
    countFail (e :: l) = countFail l := by
  simp [countFail, List.filter_cons, h]

theorem countCopied_cons_skipped (g : GFile) (l : List TaskRes) :
    countCopied (.skipped g :: l) = countCopied l := by
  simp [countCopied, List.filter_cons, TaskRes.isCopiedRes]

theorem countCopied_cons_copied (r : CopyRec) (l : List TaskRes) :
    countCopied (.copied r :: l) = countCopied l + 1 := by
  simp [countCopied, List.filter_cons, TaskRes.isCopiedRes]

theorem countCopied_cons_failed (e : ErrRec) (l : List TaskRes) :
    countCopied (.failed e :: l) = countCopied l := by
  simp [countCopied, List.filter_cons, TaskRes.isCopiedRes]

theorem countFailedT_cons_skipped (g : GFile) (l : List TaskRes) :
    countFailedT (.skipped g :: l) = countFailedT l := by
  simp [countFailedT, List.filter_cons, TaskRes.isFailedRes]

theorem countFailedT_cons_copied (r : CopyRec) (l : List TaskRes) :
    countFailedT (.copied r :: l) = countFailedT l := by
  simp [countFailedT, List.filter_cons, TaskRes.isFailedRes]

theorem countFailedT_cons_failed (e : ErrRec) (l : List TaskRes) :
    countFailedT (.failed e :: l) = countFailedT l + 1 := by
  simp [countFailedT, List.filter_cons, TaskRes.isFailedRes]

theorem copyFileBatch_spec (cfg : Config) (d : Nat) (exm : List (String × Nat)) :
    ∀ (files : List GFile) (st : DriveSt),
    (copyFileBatch cfg files d exm st).2.failIds = st.failIds
    ∧ (copyFileBatch cfg files d exm st).2.recLog = st.recLog
    ∧ (copyFileBatch cfg files d exm st).2.folderCreateLog = st.folderCreateLog
    ∧ (copyFileBatch cfg files d exm st).2.timeFn = st.timeFn
    ∧ (∃ Δ, (copyFileBatch cfg files d exm st).2.copyLog = st.copyLog ++ Δ
        ∧ countOk Δ = countCopied (copyFileBatch cfg files d exm st).1
        ∧ countFail Δ = countFailedT (copyFileBatch cfg files d exm st).1
        ∧ ∀ e ∈ Δ, ∃ f ∈ files, e.origName = f.name ∧ e.srcId = f.id ∧ e.parent = d
            ∧ ¬ isSkipCase cfg exm f)
    ∧ (∀ f ∈ files, ¬ isSkipCase cfg exm f → f.id ∈ st.failIds →
        TaskRes.failed ⟨f.name, "backend error", "file_copy_error"⟩
          ∈ (copyFileBatch cfg files d exm st).1)
    ∧ (∀ f ∈ files, ¬ isSkipCase cfg exm f → f.id ∉ st.failIds →
        (∃ nn nid, TaskRes.copied ⟨f.name, nn, f.id, nid, f.size, f.mimeType⟩
            ∈ (copyFileBatch cfg files d exm st).1)
        ∧ (∃ e ∈ (copyFileBatch cfg files d exm st).2.copyLog,
            e.srcId = f.id ∧ e.parent = d ∧ e.ok = true)) := by
  intro files
  induction files with
  | nil =>
    intro st
    refine ⟨rfl, rfl, rfl, rfl, ⟨[], by simp [copyFileBatch], ?_, ?_, by simp⟩, ?_, ?_⟩
    · simp [copyFileBatch, countOk, countCopied]
    · simp [copyFileBatch, countFail, countFailedT]
    · intro f hf
      simp at hf
    · intro f hf
      simp at hf
  | cons f rest ih =>
    intro st
    obtain ⟨hfail1, hrec1, hfol1, htf1, hskip1, hfailc1, hcopy1⟩ := copyFileTask_spec cfg f d exm st
    obtain ⟨hfail2, hrec2, hfol2, htf2, ⟨Δ2, hΔ2, hok2, hfl2, hmem2⟩, herr2, hcop2⟩ :=
      ih (copyFileTask cfg f d exm st).2
    have hunfold : copyFileBatch cfg (f :: rest) d exm st
        = ((copyFileTask cfg f d exm st).1 ::
            (copyFileBatch cfg rest d exm (copyFileTask cfg f d exm st).2).1,
           (copyFileBatch cfg rest d exm (copyFileTask cfg f d exm st).2).2) := rfl
    simp only [hunfold]
    refine ⟨by rw [hfail2, hfail1], by rw [hrec2, hrec1], by rw [hfol2, hfol1],
      by rw [htf2, htf1], ?_, ?_, ?_⟩
    · -- the copy-call log
      by_cases hsc : isSkipCase cfg exm f
      · obtain ⟨hr1, hlog1⟩ := hskip1 hsc
        refine ⟨Δ2, by rw [hΔ2, hlog1], ?_, ?_, ?_⟩
        · rw [hr1, countCopied_cons_skipped]
          exact hok2
        · rw [hr1, countFailedT_cons_skipped]
          exact hfl2
        · intro e he
          obtain ⟨g, hg, h1, h2, h3, h4⟩ := hmem2 e he
          exact ⟨g, List.mem_cons_of_mem _ hg, h1, h2, h3, h4⟩
      · by_cases hfid : f.id ∈ st.failIds
        · obtain ⟨hr1, nn, hlog1⟩ := hfailc1 hsc hfid
          refine ⟨⟨f.id, f.name, nn, d, false⟩ :: Δ2, ?_, ?_, ?_, ?_⟩
          · rw [hΔ2, hlog1]
            simp
          · rw [hr1, countOk_cons_false _ _ rfl, countCopied_cons_failed]
            exact hok2
          · rw [hr1, countFail_cons_false _ _ rfl, countFailedT_cons_failed, hfl2]
          · intro e he
            rcases List.mem_cons.1 he with he' | he'
            · subst he'
              exact ⟨f, List.mem_cons_self _ _, rfl, rfl, rfl, hsc⟩
            · obtain ⟨g, hg, h1, h2, h3, h4⟩ := hmem2 e he'
              exact ⟨g, List.mem_cons_of_mem _ hg, h1, h2, h3, h4⟩
        · obtain ⟨nn, nid, hr1, hlog1⟩ := hcopy1 hsc hfid
          refine ⟨⟨f.id, f.name, nn, d, true⟩ :: Δ2, ?_, ?_, ?_, ?_⟩
          · rw [hΔ2, hlog1]
            simp
          · rw [hr1, countOk_cons_true _ _ rfl, countCopied_cons_copied, hok2]
          · rw [hr1, countFail_cons_true _ _ rfl, countFailedT_cons_copied]
            exact hfl2
          · intro e he
            rcases List.mem_cons.1 he with he' | he'
            · subst he'
              exact ⟨f, List.mem_cons_self _ _, rfl, rfl, rfl, hsc⟩
            · obtain ⟨g, hg, h1, h2, h3, h4⟩ := hmem2 e he'
              exact ⟨g, List.mem_cons_of_mem _ hg, h1, h2, h3, h4⟩
    · -- failed files are reported
      intro g hg hgsc hgf
      rcases List.mem_cons.1 hg with hg' | hg'
      · subst hg'
        obtain ⟨hr1, _, _⟩ := hfailc1 hgsc hgf
        rw [← hr1]
        exact List.mem_cons_self _ _
      · exact List.mem_cons_of_mem _ (herr2 g hg' hgsc (by rw [hfail1]; exact hgf))
    · -- non-failing files are copied
      intro g hg hgsc hgf
      rcases List.mem_cons.1 hg with hg' | hg'
      · subst hg'
        obtain ⟨nn, nid, hr1, hlog1⟩ := hcopy1 hgsc hgf
        constructor
        · exact ⟨nn, nid, by rw [← hr1]; exact List.mem_cons_self _ _⟩
        · refine ⟨⟨g.id, g.name, nn, d, true⟩, ?_, rfl, rfl, rfl⟩
          rw [hΔ2, hlog1]
          simp
      · have := hcop2 g hg' hgsc (by rw [hfail1]; exact hgf)
        obtain ⟨⟨nn, nid, hm⟩, hlog⟩ := this
        exact ⟨⟨nn, nid, List.mem_cons_of_mem _ hm⟩, hlog⟩

theorem mem_extractErrs (lst : List TaskRes) (e : ErrRec) (h : TaskRes.failed e ∈ lst) :
    e ∈ extractErrs lst := by
  rw [extractErrs, List.mem_filterMap]
  exact ⟨.failed e, h, rfl⟩

theorem mem_extractCopies (lst : List TaskRes) (r : CopyRec) (h : TaskRes.copied r ∈ lst) :
    r ∈ extractCopies lst := by
  rw [extractCopies, List.mem_filterMap]
  exact ⟨.copied r, h, rfl⟩

theorem extractErrs_length (lst : List TaskRes) :
    (extractErrs lst).length = countFailedT lst := by
  induction lst with
  | nil => simp [extractErrs, countFailedT]
  | cons t rest ih =>
    rcases t with g | r | e <;>
      simp [extractErrs, countFailedT, List.filterMap_cons, List.filter_cons,
        TaskRes.isFailedRes] <;>
      simp [extractErrs, countFailedT, TaskRes.isFailedRes] at ih <;>
      omega

theorem applyBatchResults_spec : ∀ (lst : List TaskRes) (results : ExecResults),
    (applyBatchResults lst results).foldersCreated = results.foldersCreated
    ∧ (applyBatchResults lst results).createdFolders = results.createdFolders
    ∧ (applyBatchResults lst results).filesCopied = results.filesCopied + countCopied lst
    ∧ (applyBatchResults lst results).errors = results.errors ++ extractErrs lst
    ∧ (applyBatchResults lst results).copiedFiles = results.copiedFiles ++ extractCopies lst := by
  intro lst
  induction lst with
  | nil =>
    intro results
    simp [applyBatchResults, countCopied, extractErrs, extractCopies]
  | cons t rest ih =>
    intro results
    rcases t with g | r | e
    · simp only [applyBatchResults]
      obtain ⟨h1, h2, h3, h4, h5⟩ := ih results
      refine ⟨h1, h2, ?_, ?_, ?_⟩
      · rw [h3, countCopied_cons_skipped]
      · rw [h4]
        simp [extractErrs, List.filterMap_cons]
      · rw [h5]
        simp [extractCopies, List.filterMap_cons]
    · simp only [applyBatchResults]
      obtain ⟨h1, h2, h3, h4, h5⟩ :=
        ih { results with filesCopied := results.filesCopied + 1
                          copiedFiles := results.copiedFiles ++ [r] }
      refine ⟨h1, h2, ?_, ?_, ?_⟩
      · rw [h3, countCopied_cons_copied]
        simp
        omega
      · rw [h4]
        simp [extractErrs, List.filterMap_cons]
      · rw [h5]
        simp [extractCopies, List.filterMap_cons]
    · simp only [applyBatchResults]
      obtain ⟨h1, h2, h3, h4, h5⟩ := ih { results with errors := results.errors ++ [e] }
      refine ⟨h1, h2, ?_, ?_, ?_⟩
      · rw [h3, countCopied_cons_failed]
      · rw [h4]
        simp [extractErrs, List.filterMap_cons]
      · rw [h5]
        simp [extractCopies, List.filterMap_cons]

theorem processBatches_spec (cfg : Config) (d : Nat) (exm : List (String × Nat)) :
    ∀ (chunks : List (List GFile)) (results : ExecResults) (st : DriveSt),
    (processBatches cfg chunks d exm results st).2.failIds = st.failIds
    ∧ (processBatches cfg chunks d exm results st).2.recLog = st.recLog
    ∧ (processBatches cfg chunks d exm results st).2.folderCreateLog = st.folderCreateLog
    ∧ (processBatches cfg chunks d exm results st).2.timeFn = st.timeFn
    ∧ (processBatches cfg chunks d exm results st).1.foldersCreated = results.foldersCreated
    ∧ (processBatches cfg chunks d exm results st).1.createdFolders = results.createdFolders
    ∧ (∃ Δ E C, (processBatches cfg chunks d exm results st).2.copyLog = st.copyLog ++ Δ
        ∧ (processBatches cfg chunks d exm results st).1.filesCopied
            = results.filesCopied + countOk Δ
        ∧ (processBatches cfg chunks d exm results st).1.errors = results.errors ++ E
        ∧ E.length = countFail Δ
        ∧ (processBatches cfg chunks d exm results st).1.copiedFiles
            = results.copiedFiles ++ C
        ∧ (∀ e ∈ Δ, ∃ c ∈ chunks, ∃ f ∈ c, e.origName = f.name ∧ e.srcId = f.id
            ∧ e.parent = d ∧ ¬ isSkipCase cfg exm f))
    ∧ (∀ c ∈ chunks, ∀ f ∈ c, ¬ isSkipCase cfg exm f → f.id ∈ st.failIds →
        ∃ e ∈ (processBatches cfg chunks d exm results st).1.errors,
          e.file = f.name ∧ e.type = "file_copy_error")
    ∧ (∀ c ∈ chunks, ∀ f ∈ c, ¬ isSkipCase cfg exm f → f.id ∉ st.failIds →
        (∃ cr ∈ (processBatches cfg chunks d exm results st).1.copiedFiles,
            cr.originalId = f.id ∧ cr.originalName = f.name)
        ∧ (∃ e ∈ (processBatches cfg chunks d exm results st).2.copyLog,
            e.srcId = f.id ∧ e.parent = d ∧ e.ok = true)) := by
  intro chunks
  induction chunks with
  | nil =>
    intro results st
    refine ⟨rfl, rfl, rfl, rfl, rfl, rfl, ⟨[], [], [], by simp [processBatches], ?_, ?_, ?_, ?_, ?_⟩, ?_, ?_⟩
    · simp [processBatches, countOk]
    · simp [processBatches]
    · simp [countFail]
    · simp [processBatches]
    · simp
    · intro c hc
      simp at hc
    · intro c hc
      simp at hc
  | cons b rest ih =>
    intro results st
    obtain ⟨hbf, hbr, hbfo, hbtf, ⟨Δb, hΔb, hokb, hflb, hmemb⟩, herrb, hcopb⟩ :=
      copyFileBatch_spec cfg d exm b st
    obtain ⟨haf, hac, hafc, hae, hacp⟩ :=
      applyBatchResults_spec (copyFileBatch cfg b d exm st).1 results
    obtain ⟨hf2, hr2, hfo2, htf2, hfc2, hcf2, ⟨Δ2, E2, C2, hΔ2, hfc2', he2, hel2, hcp2, hmem2⟩,
      herr2, hcop2⟩ :=
      ih (applyBatchResults (copyFileBatch cfg b d exm st).1 results)
        (copyFileBatch cfg b d exm st).2
    have hunfold : processBatches cfg (b :: rest) d exm results st
        = processBatches cfg rest d exm
            (applyBatchResults (copyFileBatch cfg b d exm st).1 results)
            (copyFileBatch cfg b d exm st).2 := rfl
    rw [hunfold]
    refine ⟨by rw [hf2, hbf], by rw [hr2, hbr], by rw [hfo2, hbfo], by rw [htf2, hbtf],
      by rw [hfc2, haf], by rw [hcf2, hac], ?_, ?_, ?_⟩
    · -- accumulated log and counters
      refine ⟨Δb ++ Δ2, extractErrs (copyFileBatch cfg b d exm st).1 ++ E2,
        extractCopies (copyFileBatch cfg b d exm st).1 ++ C2, ?_, ?_, ?_, ?_, ?_, ?_⟩
      · rw [hΔ2, hΔb]
        simp
      · rw [hfc2', hafc, countOk_append, hokb]
        omega
      · rw [he2, hae]
        simp
      · rw [countFail_append, hflb, ← hel2, List.length_append, extractErrs_length]
      · rw [hcp2, hacp]
        simp
      · intro e he
        rcases List.mem_append.1 he with he' | he'
        · obtain ⟨f, hf, h1, h2, h3, h4⟩ := hmemb e he'
          exact ⟨b, List.mem_cons_self _ _, f, hf, h1, h2, h3, h4⟩
        · obtain ⟨c, hc, f, hf, h1, h2, h3, h4⟩ := hmem2 e he'
          exact ⟨c, List.mem_cons_of_mem _ hc, f, hf, h1, h2, h3, h4⟩
    · -- failed files are recorded in the error list
      intro c hc f hf hsc hfid
      rcases List.mem_cons.1 hc with hc' | hc'
      · subst hc'
        have hm := herrb f hf hsc hfid
        have hmE : (⟨f.name, "backend error", "file_copy_error"⟩ : ErrRec)
            ∈ (applyBatchResults (copyFileBatch cfg c d exm st).1 results).errors := by
          rw [hae]
          exact List.mem_append_right _ (mem_extractErrs _ _ hm)
        refine ⟨⟨f.name, "backend error", "file_copy_error"⟩, ?_, rfl, rfl⟩
        rw [he2]
        exact List.mem_append_left _ hmE
      · exact herr2 c hc' f hf hsc (by rw [hbf]; exact hfid)
    · -- non-failing files are copied
      intro c hc f hf hsc hfid
      rcases List.mem_cons.1 hc with hc' | hc'
      · subst hc'
        obtain ⟨⟨nn, nid, hm⟩, ⟨e, hel, he1, he2', he3⟩⟩ := hcopb f hf hsc hfid
        constructor
        · refine ⟨⟨f.name, nn, f.id, nid, f.size, f.mimeType⟩, ?_, rfl, rfl⟩
          rw [hcp2]
          refine List.mem_append_left _ ?_
          rw [hacp]
          exact List.mem_append_right _ (mem_extractCopies _ _ hm)
        · refine ⟨e, ?_, he1, he2', he3⟩
          rw [hΔ2]
          exact List.mem_append_left _ hel
      · have := hcop2 c hc' f hf hsc (by rw [hbf]; exact hfid)
        exact this

theorem mem_chunkList_aux (n : Nat) (hn : 1 ≤ n) : ∀ (k : Nat) (l : List GFile),
    l.length ≤ k → ∀ f ∈ l, ∃ c ∈ chunkList l n, f ∈ c := by
  intro k
  induction k with
  | zero =>
    intro l hl f hf
    have : l = [] := List.eq_nil_of_length_eq_zero (Nat.le_zero.1 hl)
    subst this
    simp at hf
  | succ k ih =>
    intro l hl f hf
    rw [chunkList_eq]
    have hne : ¬ (l.isEmpty ∨ n = 0) := by
      push_neg
      constructor
      · rcases l with _ | ⟨a, l'⟩
        · simp at hf
        · simp
      · omega
    rw [if_neg hne]
    by_cases hft : f ∈ l.take n
    · exact ⟨l.take n, List.mem_cons_self _ _, hft⟩
    · have hfd : f ∈ l.drop n := by
        have hsplit := List.take_append_drop n l
        rw [← hsplit] at hf
        rcases List.mem_append.1 hf with h | h
        · exact absurd h hft
        · exact h
      obtain ⟨c, hc, hfc⟩ := ih (l.drop n) (by rw [List.length_drop]; omega) f hfd
      exact ⟨c, List.mem_cons_of_mem _ hc, hfc⟩

theorem mem_chunkList (n : Nat) (hn : 1 ≤ n) (l : List GFile) (f : GFile) (hf : f ∈ l) :
    ∃ c ∈ chunkList l n, f ∈ c :=
  mem_chunkList_aux n hn l.length l (Nat.le_refl _) f hf

theorem chunkList_subset_aux (n : Nat) : ∀ (k : Nat) (l : List GFile),
    l.length ≤ k → ∀ c ∈ chunkList l n, ∀ f ∈ c, f ∈ l := by
  intro k
  induction k with
  | zero =>
    intro l hl c hc f hf
    have : l = [] := List.eq_nil_of_length_eq_zero (Nat.le_zero.1 hl)
    subst this
    simp [chunkList, chunkListAux_nil] at hc
  | succ k ih =>
    intro l hl c hc f hf
    rw [chunkList_eq] at hc
    by_cases hne : l.isEmpty ∨ n = 0
    · rw [if_pos hne] at hc
      simp at hc
    · rw [if_neg hne] at hc
      push_neg at hne
      rcases List.mem_cons.1 hc with hc' | hc'
      · subst hc'
        exact List.take_subset n l hf
      · refine List.drop_subset n l (ih (l.drop n) ?_ c hc' f hf)
        rw [List.length_drop]
        rcases l with _ | ⟨a, l'⟩
        · simp at hne
        · simp at hl ⊢
          omega

theorem chunkList_subset (n : Nat) (l : List GFile) :
    ∀ c ∈ chunkList l n, ∀ f ∈ c, f ∈ l :=
  chunkList_subset_aux n l.length l (Nat.le_refl _)

theorem copyFilesOptimized_spec (cfg : Config) (sourceId : Option Nat) (d : Nat)
    (results : ExecResults) (st : DriveSt) :
    (copyFilesOptimized cfg sourceId d results st).2.failIds = st.failIds
    ∧ (copyFilesOptimized cfg sourceId d results st).2.recLog = st.recLog
    ∧ (copyFilesOptimized cfg sourceId d results st).2.folderCreateLog = st.folderCreateLog
    ∧ (copyFilesOptimized cfg sourceId d results st).2.timeFn = st.timeFn
    ∧ (copyFilesOptimized cfg sourceId d results st).1.foldersCreated = results.foldersCreated
    ∧ (copyFilesOptimized cfg sourceId d results st).1.createdFolders = results.createdFolders
    ∧ (∃ Δ E C, (copyFilesOptimized cfg sourceId d results st).2.copyLog = st.copyLog ++ Δ
        ∧ (copyFilesOptimized cfg sourceId d results st).1.filesCopied
            = results.filesCopied + countOk Δ
        ∧ (copyFilesOptimized cfg sourceId d results st).1.errors = results.errors ++ E
        ∧ E.length = countFail Δ
        ∧ (copyFilesOptimized cfg sourceId d results st).1.copiedFiles
            = results.copiedFiles ++ C
        ∧ (∀ e ∈ Δ, ∃ f ∈ copyCandidates sourceId cfg st, e.origName = f.name
            ∧ e.srcId = f.id ∧ e.parent = d
            ∧ ¬ isSkipCase cfg (existingNameMap sourceId d cfg st) f))
    ∧ (1 ≤ cfg.batchSize → ∀ f ∈ copyCandidates sourceId cfg st,
        ¬ isSkipCase cfg (existingNameMap sourceId d cfg st) f → f.id ∈ st.failIds →
        ∃ e ∈ (copyFilesOptimized cfg sourceId d results st).1.errors,
          e.file = f.name ∧ e.type = "file_copy_error")
    ∧ (1 ≤ cfg.batchSize → ∀ f ∈ copyCandidates sourceId cfg st,
        ¬ isSkipCase cfg (existingNameMap sourceId d cfg st) f → f.id ∉ st.failIds →
        (∃ cr ∈ (copyFilesOptimized cfg sourceId d results st).1.copiedFiles,
            cr.originalId = f.id ∧ cr.originalName = f.name)
        ∧ (∃ e ∈ (copyFilesOptimized cfg sourceId d results st).2.copyLog,
            e.srcId = f.id ∧ e.parent = d ∧ e.ok = true)) := by
  by_cases hemp : (copyCandidates sourceId cfg st).isEmpty
  · have hunfold : copyFilesOptimized cfg sourceId d results st = (results, st) := by
      rw [copyFilesOptimized]
      simp [hemp]
    rw [hunfold]
    refine ⟨rfl, rfl, rfl, rfl, rfl, rfl, ⟨[], [], [], by simp, by simp [countOk],
      by simp, by simp [countFail], by simp, by simp⟩, ?_, ?_⟩
    · intro _ f hf
      rw [List.isEmpty_iff] at hemp
      rw [hemp] at hf
      simp at hf
    · intro _ f hf
      rw [List.isEmpty_iff] at hemp
      rw [hemp] at hf
      simp at hf
  · have hunfold : copyFilesOptimized cfg sourceId d results st
        = processBatches cfg (chunkList (copyCandidates sourceId cfg st) cfg.batchSize) d
            (existingNameMap sourceId d cfg st) results st := by
      rw [copyFilesOptimized]
      simp [hemp]
    rw [hunfold]
    obtain ⟨h1, h2, h3, h4, h5, h6, ⟨Δ, E, C, hΔ, hfc, he, hel, hcp, hmem⟩, herr, hcop⟩ :=
      processBatches_spec cfg d (existingNameMap sourceId d cfg st)
        (chunkList (copyCandidates sourceId cfg st) cfg.batchSize) results st
    refine ⟨h1, h2, h3, h4, h5, h6, ⟨Δ, E, C, hΔ, hfc, he, hel, hcp, ?_⟩, ?_, ?_⟩
    · intro e he'
      obtain ⟨c, hc, f, hf, hh⟩ := hmem e he'
      exact ⟨f, chunkList_subset _ _ c hc f hf, hh⟩
    · intro hbs f hf hsc hfid
      obtain ⟨c, hc, hfc⟩ := mem_chunkList cfg.batchSize hbs _ f hf
      exact herr c hc f hfc hsc hfid
    · intro hbs f hf hsc hfid
      obtain ⟨c, hc, hfc⟩ := mem_chunkList cfg.batchSize hbs _ f hf
      exact hcop c hc f hfc hsc hfid

theorem cfsoLoop_nil (exm : List (String × Nat)) (p : Nat) (path : String)
    (cache : List (Nat × Nat)) (inc : Bool) (st : DriveSt) :
    cfsoLoop [] exm p path cache inc st = ([], cache, st) := by
  rw [cfsoLoop]

theorem cfsoLoop_cons (f : SrcTree) (rest : List SrcTree) (exm : List (String × Nat))
    (p : Nat) (path : String) (cache : List (Nat × Nat)) (inc : Bool) (st : DriveSt) :
    cfsoLoop (f :: rest) exm p path cache inc st =
      (let currentPath := if path = "" then f.name else path ++ "/" ++ f.name
       let drs : Nat × DriveSt :=
         match lookupLast exm f.name with
         | some i => (i, st)
         | none => createFolder f.name p st
       let destFolderId := drs.1
       let cache1 := cache ++ [(f.id, destFolderId)]
       let rec0 : FolderRec := ⟨f.id, destFolderId, f.name, currentPath⟩
       let st2 := { drs.2 with recLog := drs.2.recLog ++ [rec0] }
       let sub : List FolderRec × List (Nat × Nat) × DriveSt :=
         if inc then
           let exm' := (listFolderChildren destFolderId st2).map fun g => (g.name, g.id)
           cfsoLoop f.subs exm' destFolderId currentPath cache1 inc st2
         else ([], cache1, st2)
       let rst := cfsoLoop rest exm p path sub.2.1 inc sub.2.2
       (rec0 :: (sub.1 ++ rst.1), rst.2)) := by
  rw [cfsoLoop]

theorem sizeOf_subs_lt (f : SrcTree) : sizeOf f.subs < sizeOf f := by
  cases f
  simp [SrcTree.subs]
  try omega

theorem cfsoLoop_state : ∀ (n : Nat) (folders : List SrcTree) (exm : List (String × Nat))
    (p : Nat) (path : String) (cache : List (Nat × Nat)) (inc : Bool) (st : DriveSt),
    sizeOf folders ≤ n →
    (cfsoLoop folders exm p path cache inc st).2.2.copyLog = st.copyLog
    ∧ (cfsoLoop folders exm p path cache inc st).2.2.recLog
        = st.recLog ++ (cfsoLoop folders exm p path cache inc st).1
    ∧ (cfsoLoop folders exm p path cache inc st).2.2.failIds = st.failIds
    ∧ (cfsoLoop folders exm p path cache inc st).2.2.timeFn = st.timeFn
    ∧ (cfsoLoop folders exm p path cache inc st).2.2.tick = st.tick := by
  intro n
  induction n with
  | zero =>
    intro folders exm p path cache inc st hsz
    exfalso
    cases folders <;> simp at hsz
  | succ n ih =>
    intro folders exm p path cache inc st hsz
    rcases folders with _ | ⟨f, rest⟩
    · rw [cfsoLoop_nil]
      simp
    · rw [cfsoLoop_cons]
      have hszf : sizeOf f.subs ≤ n := by
        have h1 := sizeOf_subs_lt f
        simp at hsz
        omega
      have hszr : sizeOf rest ≤ n := by
        simp at hsz
        omega
      rcases hlk : lookupLast exm f.name with _ | i <;> simp only [hlk]
      · by_cases hinc : inc
        · rw [if_pos hinc]
          obtain ⟨s1, s2, s3, s4, s5⟩ := ih f.subs _ _ _ _ _ _ hszf
          obtain ⟨r1, r2, r3, r4, r5⟩ := ih rest _ _ _ _ _ _ hszr
          refine ⟨?_, ?_, ?_, ?_, ?_⟩
          · rw [r1, s1]
            rfl
          · rw [r2, s2]
            simp [createFolder, List.append_assoc]
          · rw [r3, s3]
            rfl
          · rw [r4, s4]
            rfl
          · rw [r5, s5]
            rfl
        · rw [if_neg hinc]
          obtain ⟨r1, r2, r3, r4, r5⟩ := ih rest _ _ _ _ _ _ hszr
          refine ⟨?_, ?_, ?_, ?_, ?_⟩
          · rw [r1]
            rfl
          · rw [r2]
            simp [createFolder, List.append_assoc]
          · rw [r3]
            rfl
          · rw [r4]
            rfl
          · rw [r5]
            rfl
      · by_cases hinc : inc
        · rw [if_pos hinc]
          obtain ⟨s1, s2, s3, s4, s5⟩ := ih f.subs _ _ _ _ _ _ hszf
          obtain ⟨r1, r2, r3, r4, r5⟩ := ih rest _ _ _ _ _ _ hszr
          refine ⟨?_, ?_, ?_, ?_, ?_⟩
          · rw [r1, s1]
          · rw [r2, s2]
            simp [List.append_assoc]
          · rw [r3, s3]
          · rw [r4, s4]
          · rw [r5, s5]
        · rw [if_neg hinc]
          obtain ⟨r1, r2, r3, r4, r5⟩ := ih rest _ _ _ _ _ _ hszr
          refine ⟨?_, ?_, ?_, ?_, ?_⟩
          · rw [r1]
          · rw [r2]
            simp [List.append_assoc]
          · rw [r3]
          · rw [r4]
          · rw [r5]

/-- The run-level accounting invariant: the accumulator's counters agree with
the observation logs of the drive state. -/
def RInv (results : ExecResults) (st : DriveSt) : Prop :=
  results.filesCopied = countOk st.copyLog
  ∧ results.errors.length = countFail st.copyLog
  ∧ results.foldersCreated = st.recLog.length

theorem RInv_copyFilesOptimized (cfg : Config) (sourceId : Option Nat) (d : Nat)
    (results : ExecResults) (st : DriveSt) (h : RInv results st) :
    RInv (copyFilesOptimized cfg sourceId d results st).1
      (copyFilesOptimized cfg sourceId d results st).2 := by
  obtain ⟨h1, h2, h3, h4, h5, h6, ⟨Δ, E, C, hΔ, hfc, he, hel, hcp, hmem⟩, _, _⟩ :=
    copyFilesOptimized_spec cfg sourceId d results st
  obtain ⟨i1, i2, i3⟩ := h
  refine ⟨?_, ?_, ?_⟩
  · rw [hfc, hΔ, countOk_append, i1]
  · rw [he, hΔ, countFail_append, List.length_append, i2, hel]
  · rw [h5, h2, i3]

theorem subfolderLoop_spec (cfg : Config) : ∀ (folders : List FolderRec) (t0 : Nat)
    (results : ExecResults) (st : DriveSt), RInv results st →
    RInv (subfolderLoop cfg folders t0 results st).2.1
        (subfolderLoop cfg folders t0 results st).2.2
    ∧ (subfolderLoop cfg folders t0 results st).2.2.failIds = st.failIds
    ∧ (subfolderLoop cfg folders t0 results st).2.2.timeFn = st.timeFn := by
  intro folders
  induction folders with
  | nil =>
    intro t0 results st h
    exact ⟨h, rfl, rfl⟩
  | cons f rest ih =>
    intro t0 results st h
    simp only [subfolderLoop]
    by_cases hc : (checkTimeout t0 st).1
    · rw [if_pos hc]
      exact ⟨h, rfl, rfl⟩
    · rw [if_neg hc]
      have hstep : RInv (copyFilesOptimized cfg (some f.sourceId) f.destId results
          (checkTimeout t0 st).2).1
          (copyFilesOptimized cfg (some f.sourceId) f.destId results (checkTimeout t0 st).2).2 := by
        refine RInv_copyFilesOptimized cfg _ _ _ _ ?_
        exact h
      obtain ⟨hr, hfi, htf⟩ := ih t0 _ _ hstep
      obtain ⟨c1, c2, c3, c4, _, _, _, _, _⟩ :=
        copyFilesOptimized_spec cfg (some f.sourceId) f.destId results (checkTimeout t0 st).2
      refine ⟨hr, ?_, ?_⟩
      · rw [hfi, c1]
        rfl
      · rw [htf, c4]
        rfl

theorem cfso_state (subs : List SrcTree) (p : Nat) (path : String)
    (cache : List (Nat × Nat)) (inc : Bool) (st : DriveSt) :
    (cfso subs p path cache inc st).2.2.copyLog = st.copyLog
    ∧ (cfso subs p path cache inc st).2.2.recLog
        = st.recLog ++ (cfso subs p path cache inc st).1
    ∧ (cfso subs p path cache inc st).2.2.failIds = st.failIds
    ∧ (cfso subs p path cache inc st).2.2.timeFn = st.timeFn := by
  have h := cfsoLoop_state (sizeOf subs) subs
    ((listFolderChildren p st).map fun g => (g.name, g.id)) p path cache inc st
    (Nat.le_refl _)
  exact ⟨h.1, h.2.1, h.2.2.1, h.2.2.2.1⟩

theorem timeoutResult_partial (results : ExecResults) (s : DriveSt) (h : RInv results s) :
    (timeoutResult results s).1.success = false
    ∧ (timeoutResult results s).1.error = some timeoutMsg
    ∧ (timeoutResult results s).1.details = none
    ∧ (timeoutResult results s).1.stats.filesCopied
        = countOk (timeoutResult results s).2.copyLog
    ∧ (timeoutResult results s).1.stats.errorsCount
        = countFail (timeoutResult results s).2.copyLog
    ∧ (timeoutResult results s).1.stats.foldersCreated
        = (timeoutResult results s).2.recLog.length := by
  obtain ⟨i1, i2, i3⟩ := h
  exact ⟨rfl, rfl, rfl, i1, i2, i3⟩

/-- C5 amended: whenever a `run` returns `success = false` (which happens
exactly when a deadline check trips), the result is the structured timeout
shape: the timeout message, *no* detail lists (`copiedFiles`,
`createdFolders` and the error records are dropped by the catch branch), and
the three `partialResults` counters equal to exactly the work completed
before the check that tripped — the number of successful copy calls, the
number of failed copy calls, and the number of folder records accumulated in
the folder phase. -/
theorem run_timeout_partial (cfg : Config) (srcSubs : List SrcTree) (st : DriveSt)
    (h0c : st.copyLog = []) (h0r : st.recLog = []) :
    (run cfg srcSubs st).1.success = false →
    ((run cfg srcSubs st).1.error = some timeoutMsg
     ∧ (run cfg srcSubs st).1.details = none
     ∧ (run cfg srcSubs st).1.stats.filesCopied = countOk (run cfg srcSubs st).2.copyLog
     ∧ (run cfg srcSubs st).1.stats.errorsCount = countFail (run cfg srcSubs st).2.copyLog
     ∧ (run cfg srcSubs st).1.stats.foldersCreated = (run cfg srcSubs st).2.recLog.length) := by
  intro hs
  have hR0 : ∀ s' : DriveSt, s'.copyLog = st.copyLog → s'.recLog = st.recLog →
      RInv ⟨0, 0, [], [], []⟩ s' := by
    intro s' hc hr
    refine ⟨?_, ?_, ?_⟩
    · rw [hc, h0c]; rfl
    · rw [hc, h0c]; rfl
    · rw [hr, h0r]; rfl
  simp only [run] at hs ⊢
  by_cases hbr : (cfg.preserveStructure && cfg.sourceFolderId.isSome) = true
  · rw [if_pos hbr] at hs ⊢
    by_cases hc1 : (checkTimeout (dateNow st).1 (dateNow st).2).1 = true
    · rw [if_pos hc1] at hs ⊢
      have h := timeoutResult_partial _ _ (hR0 _ rfl rfl)
      exact ⟨h.2.1, h.2.2.1, h.2.2.2.1, h.2.2.2.2.1, h.2.2.2.2.2⟩
    · rw [if_neg hc1] at hs ⊢
      obtain ⟨hfo1, hfo2, hfo3, hfo4⟩ := cfso_state srcSubs cfg.destinationFolderId
        ("") ([]) cfg.includeSubfolders (checkTimeout (dateNow st).1 (dateNow st).2).2
      set fo := cfso srcSubs cfg.destinationFolderId ("") ([]) cfg.includeSubfolders
        (checkTimeout (dateNow st).1 (dateNow st).2).2 with hfo
      set res1 : ExecResults :=
        { foldersCreated := fo.1.length, filesCopied := 0, errors := [], copiedFiles := []
          createdFolders := fo.1.map fun f => ⟨f.name, f.destId, f.path⟩ } with hres1
      have hR1 : RInv res1 fo.2.2 := by
        refine ⟨?_, ?_, ?_⟩
        · show (0 : Nat) = countOk fo.2.2.copyLog
          rw [hfo1]
          show (0 : Nat) = countOk st.copyLog
          rw [h0c]
          rfl
        · show ([] : List ErrRec).length = countFail fo.2.2.copyLog
          rw [hfo1]
          show ([] : List ErrRec).length = countFail st.copyLog
          rw [h0c]
          rfl
        · show fo.1.length = fo.2.2.recLog.length
          rw [hfo2]
          show fo.1.length = (st.recLog ++ fo.1).length
          rw [h0r]
          simp
      by_cases hc2 : (checkTimeout (dateNow st).1 fo.2.2).1 = true
      · rw [if_pos hc2] at hs ⊢
        have h := timeoutResult_partial res1 (checkTimeout (dateNow st).1 fo.2.2).2 hR1
        exact ⟨h.2.1, h.2.2.1, h.2.2.2.1, h.2.2.2.2.1, h.2.2.2.2.2⟩
      · rw [if_neg hc2] at hs ⊢
        set r1 := copyFilesOptimized cfg cfg.sourceFolderId cfg.destinationFolderId res1
          (checkTimeout (dateNow st).1 fo.2.2).2 with hr1
        have hR2 : RInv r1.1 r1.2 :=
          RInv_copyFilesOptimized cfg cfg.sourceFolderId cfg.destinationFolderId res1
            (checkTimeout (dateNow st).1 fo.2.2).2 hR1
        by_cases hc3 : (checkTimeout (dateNow st).1 r1.2).1 = true
        · rw [if_pos hc3] at hs ⊢
          have h := timeoutResult_partial r1.1 (checkTimeout (dateNow st).1 r1.2).2 hR2
          exact ⟨h.2.1, h.2.2.1, h.2.2.2.1, h.2.2.2.2.1, h.2.2.2.2.2⟩
        · rw [if_neg hc3] at hs ⊢
          set lp := subfolderLoop cfg fo.1 (dateNow st).1 r1.1
            (checkTimeout (dateNow st).1 r1.2).2 with hlpdef
          have hR3 : RInv lp.2.1 lp.2.2 :=
            (subfolderLoop_spec cfg fo.1 (dateNow st).1 r1.1
              (checkTimeout (dateNow st).1 r1.2).2 hR2).1
          by_cases hlp : lp.1 = true
          · rw [if_pos hlp] at hs ⊢
            have h := timeoutResult_partial lp.2.1 lp.2.2 hR3
            exact ⟨h.2.1, h.2.2.1, h.2.2.2.1, h.2.2.2.2.1, h.2.2.2.2.2⟩
          · rw [if_neg hlp] at hs
            exact absurd hs (by simp [successResult])
  · rw [if_neg hbr] at hs ⊢
    by_cases hc1 : (checkTimeout (dateNow st).1 (dateNow st).2).1 = true
    · rw [if_pos hc1] at hs ⊢
      have h := timeoutResult_partial _ _ (hR0 _ rfl rfl)
      exact ⟨h.2.1, h.2.2.1, h.2.2.2.1, h.2.2.2.2.1, h.2.2.2.2.2⟩
    · rw [if_neg hc1] at hs
      exact absurd hs (by simp [successResult])

def emptyResults : ExecResults := ⟨0, 0, [], [], []⟩

/-! ### C6: per-file failure isolation -/

/-- C6: a backend failure while copying one file is caught per file: every
candidate file whose id is marked failing (and which is not skipped by the
conflict policy) contributes an error record carrying its name and the
`file_copy_error` tag to the result's error list, and every other (non-failing,
non-skipped) candidate of the same or later batches is still copied — neither
the batch nor the run is aborted. -/
theorem copyFilesOptimized_per_file (cfg : Config) (sourceId : Option Nat) (d : Nat)
    (results : ExecResults) (st : DriveSt) (hbs : 1 ≤ cfg.batchSize)
    (f : GFile) (hf : f ∈ copyCandidates sourceId cfg st)
    (hns : ¬ isSkipCase cfg (existingNameMap sourceId d cfg st) f) :
    (f.id ∈ st.failIds →
      ∃ e ∈ (copyFilesOptimized cfg sourceId d results st).1.errors,
        e.file = f.name ∧ e.type = "file_copy_error")
    ∧ (f.id ∉ st.failIds →
      ∃ cr ∈ (copyFilesOptimized cfg sourceId d results st).1.copiedFiles,
        cr.originalId = f.id ∧ cr.originalName = f.name) := by
  obtain ⟨_, _, _, _, _, _, _, herr, hcop⟩ := copyFilesOptimized_spec cfg sourceId d results st
  exact ⟨fun h => herr hbs f hf hns h, fun h => (hcop hbs f hf hns h).1⟩

def fileU : GFile := ⟨101, "u", 1, "text/plain", false, 4⟩

def fileV : GFile := ⟨102, "v", 1, "text/plain", false, 5⟩

def cfgC6 : Config :=
  { sourceFolderId := some 1, sourceFileIds := [], destinationFolderId := 2
    includeSubfolders := true, conflictResolution := "rename"
    preserveStructure := true, batchSize := 20, maxConcurrency := 5 }

def stC6 : DriveSt :=
  { allFiles := [fileU, fileV], nextId := 500, tick := 0, timeFn := fun _ => 0
    failIds := [101], folderCreateLog := [], recLog := [], copyLog := [] }

theorem copyFilesOptimized_per_file_witness :
    (∃ e ∈ (copyFilesOptimized cfgC6 (some 1) 2 emptyResults stC6).1.errors,
        e.file = "u" ∧ e.type = "file_copy_error")
    ∧ (∃ cr ∈ (copyFilesOptimized cfgC6 (some 1) 2 emptyResults stC6).1.copiedFiles,
        cr.originalId = 102 ∧ cr.originalName = "v") := by
  constructor
  · exact (copyFilesOptimized_per_file cfgC6 (some 1) 2 emptyResults stC6 (by decide)
      fileU (by decide) (by decide)).1 (by decide)
  · exact (copyFilesOptimized_per_file cfgC6 (some 1) 2 emptyResults stC6 (by decide)
      fileV (by decide) (by decide)).2 (by decide)

/-! ### C7: the `skip` policy and the ten-name existence pre-fetch -/

/-- C7 amended: under the `skip` policy no copy call is ever issued for a
name present in the *pre-fetched* existing-name map — but that map covers
only the first ten candidate names of the page
(`fileNames.slice(0, 10)`), so a colliding candidate whose name falls
outside the queried prefix is copied rather than skipped. -/
theorem skip_no_copy_for_prefetched (cfg : Config) (sourceId : Option Nat) (d : Nat)
    (results : ExecResults) (st : DriveSt) (hpol : cfg.conflictResolution = "skip") :
    ∃ Δ, (copyFilesOptimized cfg sourceId d results st).2.copyLog = st.copyLog ++ Δ
      ∧ ∀ e ∈ Δ, hasName (existingNameMap sourceId d cfg st) e.origName = false := by
  obtain ⟨_, _, _, _, _, _, ⟨Δ, E, C, hΔ, _, _, _, _, hmem⟩, _, _⟩ :=
    copyFilesOptimized_spec cfg sourceId d results st
  refine ⟨Δ, hΔ, ?_⟩
  intro e he
  obtain ⟨f, hf, hname, _, _, hnsc⟩ := hmem e he
  rw [hname]
  by_cases hx : hasName (existingNameMap sourceId d cfg st) f.name = true
  · exact absurd ⟨hx, hpol⟩ hnsc
  · simpa using hx

def cfgSkip : Config :=
  { sourceFolderId := some 1, sourceFileIds := [], destinationFolderId := 2
    includeSubfolders := true, conflictResolution := "skip"
    preserveStructure := true, batchSize := 20, maxConcurrency := 5 }

def stC7 : DriveSt :=
  { allFiles :=
      [⟨1010, "n01", 1, "text/plain", false, 1⟩, ⟨1020, "n02", 1, "text/plain", false, 1⟩,
       ⟨1030, "n03", 1, "text/plain", false, 1⟩, ⟨1040, "n04", 1, "text/plain", false, 1⟩,
       ⟨1050, "n05", 1, "text/plain", false, 1⟩, ⟨1060, "n06", 1, "text/plain", false, 1⟩,
       ⟨1070, "n07", 1, "text/plain", false, 1⟩, ⟨1080, "n08", 1, "text/plain", false, 1⟩,
       ⟨1090, "n09", 1, "text/plain", false, 1⟩, ⟨1100, "n10", 1, "text/plain", false, 1⟩,
       ⟨1110, "n11", 1, "text/plain", false, 1⟩, ⟨200, "n11", 2, "text/plain", false, 9⟩]
    nextId := 500, tick := 0, timeFn := fun _ => 0, failIds := []
    folderCreateLog := [], recLog := [], copyLog := [] }

/-- C7 counterexample: eleven candidate files; the eleventh, `n11`, already
exists in the destination folder, yet `copyFilesOptimized` under `skip`
issues a copy call for it, because the batched existence query only covers
the first ten candidate names. -/
theorem skip_copies_beyond_ten_cex :
    cfgSkip.conflictResolution = "skip"
    ∧ (∃ g ∈ stC7.allFiles, g.name = "n11" ∧ g.parent = 2 ∧ g.trashed = false
        ∧ isFolderFile g = false)
    ∧ (∃ e ∈ (copyFilesOptimized cfgSkip (some 1) 2 emptyResults stC7).2.copyLog,
        e.origName = "n11" ∧ e.parent = 2) := by
  refine ⟨rfl, by decide, by decide⟩

def stW7 : DriveSt :=
  { allFiles := [⟨101, "w", 1, "text/plain", false, 3⟩, ⟨201, "w", 2, "text/plain", false, 3⟩]
    nextId := 500, tick := 0, timeFn := fun _ => 0, failIds := []
    folderCreateLog := [], recLog := [], copyLog := [] }

theorem skip_no_copy_for_prefetched_witness :
    ∃ Δ, (copyFilesOptimized cfgSkip (some 1) 2 emptyResults stW7).2.copyLog
          = stW7.copyLog ++ Δ
      ∧ ∀ e ∈ Δ, hasName (existingNameMap (some 1) 2 cfgSkip stW7) e.origName = false :=
  skip_no_copy_for_prefetched cfgSkip (some 1) 2 emptyResults stW7 rfl

/-! ### C10: running with no source folder id copies the whole drive -/

/-- C10: when `replicate` is invoked without a source folder id, the listing
query used by `copyFilesOptimized` has no parent constraint, so the copy
candidates are every non-trashed, non-folder file of the drive regardless of
parent — and (with the default `rename` policy, no explicit file-id
allow-list, no injected backend failures and no deadline expiry) every one of
them is copied into the destination folder. -/
theorem run_rootless_copies_all (cfg : Config) (srcSubs : List SrcTree) (st : DriveSt)
    (hsrc : cfg.sourceFolderId = none)
    (hids : cfg.sourceFileIds = [])
    (hpol : cfg.conflictResolution = "rename")
    (hfail : st.failIds = [])
    (hbs : 1 ≤ cfg.batchSize)
    (htime : ∀ i j, st.timeFn i ≤ st.timeFn j + timeoutMs) :
    (run cfg srcSubs st).1.success = true
    ∧ ∀ f ∈ st.allFiles, f.trashed = false → isFolderFile f = false →
        ∃ e ∈ (run cfg srcSubs st).2.copyLog,
          e.srcId = f.id ∧ e.parent = cfg.destinationFolderId ∧ e.ok = true := by
  have hbr : (cfg.preserveStructure && cfg.sourceFolderId.isSome) = false := by
    rw [hsrc]
    simp
  have hc1 : (checkTimeout (dateNow st).1 (dateNow st).2).1 = false := by
    simp only [checkTimeout, dateNow]
    rw [decide_eq_false_iff_not]
    have := htime (st.tick + 1) st.tick
    simp only [timeoutMs] at this ⊢
    omega
  simp only [run, hbr, Bool.false_eq_true, if_false, hc1]
  constructor
  · rfl
  · intro f hf htr hfo
    obtain ⟨_, _, _, _, _, _, _, _, hcop⟩ :=
      copyFilesOptimized_spec cfg cfg.sourceFolderId cfg.destinationFolderId
        ⟨0, 0, [], [], []⟩ (checkTimeout (dateNow st).1 (dateNow st).2).2
    have hfc : f ∈ copyCandidates cfg.sourceFolderId cfg
        (checkTimeout (dateNow st).1 (dateNow st).2).2 := by
      rw [copyCandidates]
      simp only [hids, hsrc, List.length_nil, gt_iff_lt, Nat.lt_irrefl, if_false]
      show f ∈ listNonFolderChildren none (checkTimeout (dateNow st).1 (dateNow st).2).2
      rw [listNonFolderChildren]
      refine List.mem_filter.2 ⟨hf, ?_⟩
      simp [hfo, htr]
    have hnsc : ¬ isSkipCase cfg (existingNameMap cfg.sourceFolderId
        cfg.destinationFolderId cfg (checkTimeout (dateNow st).1 (dateNow st).2).2) f := by
      intro h
      have h2 := h.2
      rw [hpol] at h2
      exact absurd h2 (by decide)
    have hfid : f.id ∉ (checkTimeout (dateNow st).1 (dateNow st).2).2.failIds := by
      show f.id ∉ st.failIds
      rw [hfail]
      simp
    obtain ⟨_, e, helog, he1, he2, he3⟩ := hcop hbs f hfc hnsc hfid
    exact ⟨e, helog, he1, he2, he3⟩

def cfgC10 : Config :=
  { sourceFolderId := none, sourceFileIds := [], destinationFolderId := 2
    includeSubfolders := true, conflictResolution := "rename"
    preserveStructure := true, batchSize := 20, maxConcurrency := 5 }

def stC10 : DriveSt :=
  { allFiles := [⟨101, "p1", 1, "text/plain", false, 1⟩, ⟨102, "p2", 7, "text/plain", false, 2⟩]
    nextId := 500, tick := 0, timeFn := fun _ => 0, failIds := []
    folderCreateLog := [], recLog := [], copyLog := [] }

theorem run_rootless_copies_all_witness :
    (run cfgC10 [] stC10).1.success = true
    ∧ ∀ f ∈ stC10.allFiles, f.trashed = false → isFolderFile f = false →
        ∃ e ∈ (run cfgC10 [] stC10).2.copyLog,
          e.srcId = f.id ∧ e.parent = cfgC10.destinationFolderId ∧ e.ok = true :=
  run_rootless_copies_all cfgC10 [] stC10 rfl rfl rfl rfl (by decide)
    (fun i j => Nat.zero_le _)

/-! ### C5: concrete timeout runs -/

def cfgC5 : Config :=
  { sourceFolderId := some 1, sourceFileIds := [], destinationFolderId := 2
    includeSubfolders := true, conflictResolution := "rename"
    preserveStructure := true, batchSize := 20, maxConcurrency := 5 }

def stC5 : DriveSt :=
  { allFiles := [⟨100, "x", 1, "text/plain", false, 7⟩], nextId := 500, tick := 0
    timeFn := fun i => if 3 ≤ i then 300000 else 0, failIds := []
    folderCreateLog := [], recLog := [], copyLog := [] }

/-- C5 counterexample: a run that copies one file and then trips the
deadline check returns `success = false` with `filesCopied = 1`, but *no*
detail lists at all (`details = none`): the accumulated copied-file,
created-folder and error-record lists are dropped by the catch branch,
refuting the claim that the timeout result retains them. -/
theorem run_timeout_drops_details_cex :
    (run cfgC5 [] stC5).1.success = false
    ∧ (run cfgC5 [] stC5).1.stats.filesCopied = 1
    ∧ (run cfgC5 [] stC5).1.details = none := by
  have hnil : cfso ([] : List SrcTree) cfgC5.destinationFolderId ("") ([])
      cfgC5.includeSubfolders (checkTimeout (dateNow stC5).1 (dateNow stC5).2).2
      = ([], ([] : List (Nat × Nat)), (checkTimeout (dateNow stC5).1 (dateNow stC5).2).2) := by
    simp only [cfso]
    rw [cfsoLoop_nil]
  refine ⟨?_, ?_, ?_⟩ <;> simp only [run, hnil] <;> decide

def cfgC5b : Config :=
  { sourceFolderId := none, sourceFileIds := [], destinationFolderId := 2
    includeSubfolders := true, conflictResolution := "rename"
    preserveStructure := false, batchSize := 20, maxConcurrency := 5 }

def stC5b : DriveSt :=
  { allFiles := [], nextId := 0, tick := 0, timeFn := fun i => i * 270001, failIds := []
    folderCreateLog := [], recLog := [], copyLog := [] }

theorem run_timeout_partial_witness :
    (run cfgC5b [] stC5b).1.error = some timeoutMsg
    ∧ (run cfgC5b [] stC5b).1.details = none
    ∧ (run cfgC5b [] stC5b).1.stats.filesCopied = countOk (run cfgC5b [] stC5b).2.copyLog
    ∧ (run cfgC5b [] stC5b).1.stats.errorsCount = countFail (run cfgC5b [] stC5b).2.copyLog
    ∧ (run cfgC5b [] stC5b).1.stats.foldersCreated = (run cfgC5b [] stC5b).2.recLog.length :=
  run_timeout_partial cfgC5b [] stC5b rfl rfl (by decide)

/-! ### C4: no duplicate folder creations

The pre-fetched existing-folder map of one `createFolderStructureOptimized`
call is not refreshed after creations, and the source-to-destination cache is
written but never read, so duplicate *sibling* source folder names defeat the
claimed uniqueness.  With pairwise-distinct sibling names the uniqueness does
hold, which we prove below from a well-formedness invariant of the drive. -/

/-- Pairwise-distinct subfolder names at every level of a source tree. -/
def treeNodup : SrcTree → Prop
  | .node _ _ subs => (subs.map SrcTree.name).Nodup ∧ ∀ t ∈ subs, treeNodup t
termination_by t => sizeOf t
decreasing_by
  rename_i ht
  have h := List.sizeOf_lt_of_mem ht
  simp only [SrcTree.node.sizeOf_spec]
  omega

theorem treeNodup_def (t : SrcTree) :
    treeNodup t ↔ ((t.subs.map SrcTree.name).Nodup ∧ ∀ s ∈ t.subs, treeNodup s) := by
  cases t
  simp only [treeNodup, SrcTree.subs]

/-- Names of the non-trashed folders listed under `q`. -/
def fNamesAt (q : Nat) (st : DriveSt) : List String :=
  (listFolderChildren q st).map GFile.name

/-- Drive well-formedness: ids below the allocator, folder parents strictly
below folder ids (creation order), and per-parent folder names distinct. -/
def stWF (st : DriveSt) : Prop :=
  (∀ f ∈ st.allFiles, f.id < st.nextId ∧ f.parent < st.nextId)
  ∧ (∀ f ∈ st.allFiles, isFolderFile f = true → f.trashed = false → f.parent < f.id)
  ∧ (∀ q : Nat, (fNamesAt q st).Nodup)

/-- Every logged creation of name `n` under parent `q` is matched by a listed
folder of that name there, counted with multiplicity. -/
def LogMatch (st : DriveSt) : Prop :=
  ∀ n q, (st.folderCreateLog.countP fun e => decide (e = (n, q)))
    ≤ ((listFolderChildren q st).filter fun f => f.name == n).length

theorem lookupLast_mem (m : List (String × Nat)) (n : String) (i : Nat)
    (h : lookupLast m n = some i) : (n, i) ∈ m := by
  induction m with
  | nil => simp [lookupLast] at h
  | cons e rest ih =>
    obtain ⟨k, v⟩ := e
    rw [lookupLast] at h
    rcases hr : lookupLast rest n with _ | r
    · rw [hr] at h
      simp only at h
      by_cases hk : k = n
      · rw [if_pos hk] at h
        obtain rfl := Option.some.inj h
        rw [hk]
        exact List.mem_cons_self _ _
      · rw [if_neg hk] at h
        simp at h
    · rw [hr] at h
      simp only at h
      obtain rfl := Option.some.inj h
      exact List.mem_cons_of_mem _ (ih hr)

theorem lookupLast_listing (l : List GFile) (n : String) (i : Nat)
    (h : lookupLast (l.map fun g => (g.name, g.id)) n = some i) :
    ∃ g ∈ l, g.name = n ∧ g.id = i := by
  have := lookupLast_mem _ _ _ h
  rcases List.mem_map.1 this with ⟨g, hg, hgp⟩
  rw [Prod.mk.injEq] at hgp
  exact ⟨g, hg, hgp.1, hgp.2⟩

theorem hasName_of_mem_names (l : List GFile) (n : String)
    (h : n ∈ l.map GFile.name) :
    hasName (l.map fun g => (g.name, g.id)) n = true := by
  induction l with
  | nil => simp at h
  | cons g rest ih =>
    rw [List.map_cons] at h
    rw [List.map_cons, hasName, lookupLast]
    rcases hr : lookupLast (rest.map fun g => (g.name, g.id)) n with _ | r
    · simp only [hr]
      rcases List.mem_cons.1 h with h' | h'
      · rw [if_pos h'.symm]
        rfl
      · have hir := ih h'
        rw [hasName, hr] at hir
        simp at hir
    · simp only [hr]
      rfl

theorem not_mem_names_of_hasName_false (l : List GFile) (n : String)
    (h : hasName (l.map fun g => (g.name, g.id)) n = false) :
    n ∉ l.map GFile.name := by
  intro hmem
  rw [hasName_of_mem_names l n hmem] at h
  simp at h

theorem mem_listFolderChildren (q : Nat) (st : DriveSt) (g : GFile)
    (h : g ∈ listFolderChildren q st) :
    g ∈ st.allFiles ∧ g.parent = q ∧ isFolderFile g = true ∧ g.trashed = false := by
  rw [listFolderChildren, List.mem_filter] at h
  obtain ⟨h1, h2⟩ := h
  simp only [Bool.and_eq_true, beq_iff_eq, Bool.not_eq_true'] at h2
  exact ⟨h1, h2.1.1, h2.1.2, h2.2⟩

theorem filter_name_length_le_one (l : List GFile) (n : String)
    (h : (l.map GFile.name).Nodup) :
    ((l.filter fun f => f.name == n).length) ≤ 1 := by
  induction l with
  | nil => simp
  | cons g rest ih =>
    simp only [List.map_cons, List.nodup_cons] at h
    rw [List.filter_cons]
    by_cases hg : g.name = n
    · simp only [hg, beq_self_eq_true, if_pos]
      have hzero : (rest.filter fun f => f.name == n).length = 0 := by
        rw [List.length_eq_zero, List.filter_eq_nil_iff]
        intro f hf
        simp only [beq_iff_eq]
        intro hfn
        refine h.1 ?_
        rw [hg, ← hfn]
        exact List.mem_map_of_mem GFile.name hf
      simp [hzero]
    · have : (g.name == n) = false := by simp [hg]
      rw [this]
      simp only [Bool.false_eq_true, if_false]
      exact ih h.2

/-- The folder record appended by one `createFolder` call. -/
def mkFolder (nm : String) (p : Nat) (i : Nat) : GFile :=
  ⟨i, nm, p, folderMime, false, 0⟩

theorem fNamesAt_append (q : Nat) (st st' : DriveSt) (Δ : List GFile)
    (h : st'.allFiles = st.allFiles ++ Δ) :
    fNamesAt q st' = fNamesAt q st
      ++ ((Δ.filter fun f => f.parent == q && isFolderFile f && !f.trashed).map GFile.name) := by
  simp [fNamesAt, listFolderChildren, h, List.filter_append]

theorem fNamesAt_unchanged (q : Nat) (st st' : DriveSt) (Δ : List GFile)
    (h : st'.allFiles = st.allFiles ++ Δ) (hq : ∀ f ∈ Δ, ¬ f.parent = q) :
    fNamesAt q st' = fNamesAt q st := by
  rw [fNamesAt_append q st st' Δ h]
  have hnil : Δ.filter (fun f => f.parent == q && isFolderFile f && !f.trashed) = [] := by
    rw [List.filter_eq_nil_iff]
    intro f hf
    simp [hq f hf]
  rw [hnil]
  simp

theorem createFolder_allFiles (st : DriveSt) (nm : String) (p : Nat) :
    (createFolder nm p st).2.allFiles = st.allFiles ++ [mkFolder nm p st.nextId] := rfl

theorem fNamesAt_create (st : DriveSt) (nm : String) (p : Nat) :
    fNamesAt p (createFolder nm p st).2 = fNamesAt p st ++ [nm] := by
  rw [fNamesAt_append p st _ [mkFolder nm p st.nextId] (createFolder_allFiles st nm p)]
  simp [mkFolder, isFolderFile, folderMime]

theorem fNamesAt_create_ne (st : DriveSt) (nm : String) (p q : Nat) (h : q ≠ p) :
    fNamesAt q (createFolder nm p st).2 = fNamesAt q st := by
  refine fNamesAt_unchanged q st _ [mkFolder nm p st.nextId]
    (createFolder_allFiles st nm p) ?_
  intro f hf
  rcases List.mem_singleton.1 hf with rfl
  simp only [mkFolder]
  exact fun hq => h hq.symm

theorem stWF_create (st : DriveSt) (nm : String) (p : Nat)
    (hwf : stWF st) (hp : p < st.nextId) (hnew : nm ∉ fNamesAt p st) :
    stWF (createFolder nm p st).2 := by
  obtain ⟨w1, w2, w3⟩ := hwf
  have hnext : (createFolder nm p st).2.nextId = st.nextId + 1 := rfl
  refine ⟨?_, ?_, ?_⟩
  · intro f hf
    rw [createFolder_allFiles] at hf
    rcases List.mem_append.1 hf with hf' | hf'
    · have := w1 f hf'
      rw [hnext]
      omega
    · rcases List.mem_singleton.1 hf' with rfl
      rw [hnext]
      simp only [mkFolder]
      omega
  · intro f hf hfo htr
    rw [createFolder_allFiles] at hf
    rcases List.mem_append.1 hf with hf' | hf'
    · exact w2 f hf' hfo htr
    · rcases List.mem_singleton.1 hf' with rfl
      simpa [mkFolder] using hp
  · intro q
    by_cases hq : q = p
    · subst hq
      rw [fNamesAt_create]
      rw [List.nodup_append]
      exact ⟨w3 q, List.nodup_singleton nm, by simpa using hnew⟩
    · rw [fNamesAt_create_ne st nm p q hq]
      exact w3 q

theorem listFolderChildren_create (st : DriveSt) (nm : String) (p q : Nat) :
    listFolderChildren q (createFolder nm p st).2
      = listFolderChildren q st
        ++ ([mkFolder nm p st.nextId].filter fun f =>
            f.parent == q && isFolderFile f && !f.trashed) := by
  simp [listFolderChildren, createFolder_allFiles, List.filter_append]

theorem LogMatch_create (st : DriveSt) (nm : String) (p : Nat) (hlm : LogMatch st) :
    LogMatch (createFolder nm p st).2 := by
  intro n q
  have hlog : (createFolder nm p st).2.folderCreateLog
      = st.folderCreateLog ++ [(nm, p)] := rfl
  rw [hlog, List.countP_append, listFolderChildren_create, List.filter_append,
    List.length_append]
  have hbase := hlm n q
  by_cases hqp : q = p
  · subst hqp
    by_cases hnn : n = nm
    · subst hnn
      have h1 : (List.countP (fun e => decide (e = (n, q))) [(n, q)]) = 1 := by
        simp
      have h2 : (([mkFolder n q st.nextId].filter fun f =>
          f.parent == q && isFolderFile f && !f.trashed).filter fun f =>
            f.name == n).length = 1 := by
        simp [mkFolder, isFolderFile, folderMime]
      rw [h1, h2]
      omega
    · have h1 : (List.countP (fun e => decide (e = (n, q))) [(nm, q)]) = 0 := by
        rw [List.countP_eq_zero]
        intro a ha
        rcases List.mem_singleton.1 ha with rfl
        simp only [decide_eq_true_eq, Prod.mk.injEq, and_true]
        exact fun h => hnn h.symm
      rw [h1]
      omega
  · have h1 : (List.countP (fun e => decide (e = (n, q))) [(nm, p)]) = 0 := by
      rw [List.countP_eq_zero]
      intro a ha
      rcases List.mem_singleton.1 ha with rfl
      simp only [decide_eq_true_eq, Prod.mk.injEq]
      exact fun h => hqp h.2.symm
    have h2 : (([mkFolder nm p st.nextId].filter fun f =>
        f.parent == q && isFolderFile f && !f.trashed).filter fun f =>
          f.name == n).length = 0 := by
      have hpq : ((mkFolder nm p st.nextId).parent == q) = false := by
        simp only [mkFolder]
        simp only [beq_eq_false_iff_ne, ne_eq]
        exact fun hx => hqp hx.symm
      simp [List.filter_singleton, hpq]
    rw [h1, h2]
    omega

theorem cfsoLoop_nodup_aux : ∀ (N : Nat) (folders : List SrcTree)
    (exm : List (String × Nat)) (p : Nat) (path : String)
    (cache : List (Nat × Nat)) (inc : Bool) (st : DriveSt),
    sizeOf folders ≤ N → stWF st → LogMatch st → p < st.nextId →
    (∀ n j, lookupLast exm n = some j → p < j ∧ j < st.nextId) →
    (∀ t ∈ folders, lookupLast exm t.name = none → t.name ∉ fNamesAt p st) →
    (folders.map SrcTree.name).Nodup →
    (∀ t ∈ folders, treeNodup t) →
    stWF (cfsoLoop folders exm p path cache inc st).2.2
    ∧ LogMatch (cfsoLoop folders exm p path cache inc st).2.2
    ∧ st.nextId ≤ (cfsoLoop folders exm p path cache inc st).2.2.nextId
    ∧ ∃ Δ, (cfsoLoop folders exm p path cache inc st).2.2.allFiles = st.allFiles ++ Δ
        ∧ ∀ g ∈ Δ, p ≤ g.parent := by
  intro N
  induction N with
  | zero =>
    intro folders exm p path cache inc st hsz
    exfalso
    cases folders <;> simp at hsz
  | succ N ih =>
    intro folders exm p path cache inc st hsz hwf hlm hp hids hnames hnd htr
    rcases folders with _ | ⟨f, rest⟩
    · rw [cfsoLoop_nil]
      exact ⟨hwf, hlm, le_refl _, [], by simp, by simp⟩
    · have hszf : sizeOf f.subs ≤ N := by
        have h1 := sizeOf_subs_lt f
        simp at hsz
        omega
      have hszr : sizeOf rest ≤ N := by
        simp at hsz
        omega
      rw [List.map_cons, List.nodup_cons] at hnd
      have htrf := htr f (List.mem_cons_self f rest)
      have htrr : ∀ t ∈ rest, treeNodup t := fun t ht => htr t (List.mem_cons_of_mem f ht)
      rw [treeNodup_def] at htrf
      set cp := (if path = "" then f.name else path ++ "/" ++ f.name) with hcp
      rcases hlk : lookupLast exm f.name with _ | i
      · -- name absent from the stale map: a fresh folder is created under `p`
        have hnm : f.name ∉ fNamesAt p st := hnames f (List.mem_cons_self f rest) hlk
        set st1 := (createFolder f.name p st).2 with hst1
        have hwf1 : stWF st1 := by
          rw [hst1]
          exact stWF_create st f.name p hwf hp hnm
        have hlm1 : LogMatch st1 := by
          rw [hst1]
          exact LogMatch_create st f.name p hlm
        set st2 := { st1 with
          recLog := st1.recLog
            ++ [(⟨f.id, (createFolder f.name p st).1, f.name, cp⟩ : FolderRec)] } with hst2
        have hwf2 : stWF st2 := hwf1
        have hlm2 : LogMatch st2 := hlm1
        have hnext2 : st2.nextId = st.nextId + 1 := rfl
        have hfiles2 : st2.allFiles = st.allFiles ++ [mkFolder f.name p st.nextId] :=
          createFolder_allFiles st f.name p
        have hfn2 : fNamesAt p st2 = fNamesAt p st ++ [f.name] :=
          fNamesAt_create st f.name p
        set dno := (createFolder f.name p st).1 with hdno
        have hdval : dno = st.nextId := rfl
        set cache1 := cache ++ [(f.id, dno)] with hcache1
        set exm2 := ((listFolderChildren dno st2).map fun g => (g.name, g.id)) with hexm2
        have hpd : dno < st2.nextId := by
          rw [hdval, hnext2]
          omega
        have hids2 : ∀ n j, lookupLast exm2 n = some j → dno < j ∧ j < st2.nextId := by
          intro n j hnj
          rw [hexm2] at hnj
          obtain ⟨g, hg, hgn, hgi⟩ := lookupLast_listing _ _ _ hnj
          obtain ⟨hga, hgp, hgf, hgt⟩ := mem_listFolderChildren dno st2 g hg
          obtain ⟨w1, w2, w3⟩ := hwf2
          refine ⟨?_, ?_⟩
          · rw [← hgi, ← hgp]
            exact w2 g hga hgf hgt
          · rw [← hgi]
            exact (w1 g hga).1
        have hnames2 : ∀ t ∈ f.subs, lookupLast exm2 t.name = none →
            t.name ∉ fNamesAt dno st2 := by
          intro t ht hnone
          have hh : hasName exm2 t.name = false := by simp [hasName, hnone]
          rw [hexm2] at hh
          exact not_mem_names_of_hasName_false _ _ hh
        set sub := (if inc = true then cfsoLoop f.subs exm2 dno cp cache1 inc st2
          else ([], cache1, st2)) with hsub
        have hsf : stWF sub.2.2 ∧ LogMatch sub.2.2 ∧ st2.nextId ≤ sub.2.2.nextId
            ∧ ∃ Δm, sub.2.2.allFiles = st2.allFiles ++ Δm ∧ ∀ g ∈ Δm, p < g.parent := by
          by_cases hinc : inc
          · rw [hsub, if_pos hinc]
            obtain ⟨swf, slm, snext, Δs, hΔs, hΔsp⟩ :=
              ih f.subs exm2 dno cp cache1 inc st2 hszf hwf2 hlm2 hpd hids2 hnames2
                htrf.1 htrf.2
            refine ⟨swf, slm, snext, Δs, hΔs, ?_⟩
            intro g hg
            have h1 := hΔsp g hg
            rw [hdval] at h1
            omega
          · rw [hsub, if_neg hinc]
            exact ⟨hwf2, hlm2, le_refl _, [], by simp, by simp⟩
        obtain ⟨mwf, mlm, mnext, Δm, hΔm, hΔmp⟩ := hsf
        have hmN : st.nextId ≤ sub.2.2.nextId := by
          rw [hnext2] at mnext
          omega
        have hpN : p < sub.2.2.nextId := lt_of_lt_of_le hp hmN
        have hidsN : ∀ n j, lookupLast exm n = some j → p < j ∧ j < sub.2.2.nextId :=
          fun n j h => ⟨(hids n j h).1, lt_of_lt_of_le (hids n j h).2 hmN⟩
        have hfnN : fNamesAt p sub.2.2 = fNamesAt p st ++ [f.name] := by
          have hne : ∀ g ∈ Δm, ¬ g.parent = p := by
            intro g hg hgp
            have h1 := hΔmp g hg
            omega
          rw [fNamesAt_unchanged p st2 sub.2.2 Δm hΔm hne, hfn2]
        have hnamesN : ∀ t ∈ rest, lookupLast exm t.name = none →
            t.name ∉ fNamesAt p sub.2.2 := by
          intro t ht hnone
          rw [hfnN]
          intro hmem
          rcases List.mem_append.1 hmem with h' | h'
          · exact hnames t (List.mem_cons_of_mem f ht) hnone h'
          · have h'' := List.mem_singleton.1 h'
            exact hnd.1 (h'' ▸ List.mem_map_of_mem SrcTree.name ht)
        obtain ⟨rwf2, rlm2, rnext2, Δr, hΔr, hΔrp⟩ :=
          ih rest exm p path sub.2.1 inc sub.2.2 hszr mwf mlm hpN hidsN hnamesN
            hnd.2 htrr
        have hfin : (cfsoLoop (f :: rest) exm p path cache inc st).2.2
            = (cfsoLoop rest exm p path sub.2.1 inc sub.2.2).2.2 := by
          rw [cfsoLoop_cons]
          simp only [hlk]
        rw [hfin]
        refine ⟨rwf2, rlm2, le_trans hmN rnext2,
          [mkFolder f.name p st.nextId] ++ Δm ++ Δr, ?_, ?_⟩
        · rw [hΔr, hΔm, hfiles2]
          simp [List.append_assoc]
        · intro g hg
          rcases List.mem_append.1 hg with hg1 | hg1
          · rcases List.mem_append.1 hg1 with hg2 | hg2
            · have h'' := List.mem_singleton.1 hg2
              rw [h'']
              simp [mkFolder]
            · have h1 := hΔmp g hg2
              omega
          · exact hΔrp g hg1
      · -- name found in the stale map: the existing destination folder is reused
        have hpi := hids f.name i hlk
        set st2 := { st with
          recLog := st.recLog ++ [(⟨f.id, i, f.name, cp⟩ : FolderRec)] } with hst2
        have hwf2 : stWF st2 := hwf
        have hlm2 : LogMatch st2 := hlm
        have hnext2 : st2.nextId = st.nextId := rfl
        have hfiles2 : st2.allFiles = st.allFiles := rfl
        have hfn2 : fNamesAt p st2 = fNamesAt p st := rfl
        set cache1 := cache ++ [(f.id, i)] with hcache1
        set exm2 := ((listFolderChildren i st2).map fun g => (g.name, g.id)) with hexm2
        have hpd : i < st2.nextId := by
          rw [hnext2]
          exact hpi.2
        have hids2 : ∀ n j, lookupLast exm2 n = some j → i < j ∧ j < st2.nextId := by
          intro n j hnj
          rw [hexm2] at hnj
          obtain ⟨g, hg, hgn, hgi⟩ := lookupLast_listing _ _ _ hnj
          obtain ⟨hga, hgp, hgf, hgt⟩ := mem_listFolderChildren i st2 g hg
          obtain ⟨w1, w2, w3⟩ := hwf2
          refine ⟨?_, ?_⟩
          · rw [← hgi, ← hgp]
            exact w2 g hga hgf hgt
          · rw [← hgi]
            exact (w1 g hga).1
        have hnames2 : ∀ t ∈ f.subs, lookupLast exm2 t.name = none →
            t.name ∉ fNamesAt i st2 := by
          intro t ht hnone
          have hh : hasName exm2 t.name = false := by simp [hasName, hnone]
          rw [hexm2] at hh
          exact not_mem_names_of_hasName_false _ _ hh
        set sub := (if inc = true then cfsoLoop f.subs exm2 i cp cache1 inc st2
          else ([], cache1, st2)) with hsub
        have hsf : stWF sub.2.2 ∧ LogMatch sub.2.2 ∧ st2.nextId ≤ sub.2.2.nextId
            ∧ ∃ Δm, sub.2.2.allFiles = st2.allFiles ++ Δm ∧ ∀ g ∈ Δm, p < g.parent := by
          by_cases hinc : inc
          · rw [hsub, if_pos hinc]
            obtain ⟨swf, slm, snext, Δs, hΔs, hΔsp⟩ :=
              ih f.subs exm2 i cp cache1 inc st2 hszf hwf2 hlm2 hpd hids2 hnames2
                htrf.1 htrf.2
            refine ⟨swf, slm, snext, Δs, hΔs, ?_⟩
            intro g hg
            have h1 := hΔsp g hg
            have h2 := hpi.1
            omega
          · rw [hsub, if_neg hinc]
            exact ⟨hwf2, hlm2, le_refl _, [], by simp, by simp⟩
        obtain ⟨mwf, mlm, mnext, Δm, hΔm, hΔmp⟩ := hsf
        have hmN : st.nextId ≤ sub.2.2.nextId := by
          rw [hnext2] at mnext
          exact mnext
        have hpN : p < sub.2.2.nextId := lt_of_lt_of_le hp hmN
        have hidsN : ∀ n j, lookupLast exm n = some j → p < j ∧ j < sub.2.2.nextId :=
          fun n j h => ⟨(hids n j h).1, lt_of_lt_of_le (hids n j h).2 hmN⟩
        have hfnN : fNamesAt p sub.2.2 = fNamesAt p st := by
          have hne : ∀ g ∈ Δm, ¬ g.parent = p := by
            intro g hg hgp
            have h1 := hΔmp g hg
            omega
          rw [fNamesAt_unchanged p st2 sub.2.2 Δm hΔm hne, hfn2]
        have hnamesN : ∀ t ∈ rest, lookupLast exm t.name = none →
            t.name ∉ fNamesAt p sub.2.2 := by
          intro t ht hnone
          rw [hfnN]
          exact hnames t (List.mem_cons_of_mem f ht) hnone
        obtain ⟨rwf2, rlm2, rnext2, Δr, hΔr, hΔrp⟩ :=
          ih rest exm p path sub.2.1 inc sub.2.2 hszr mwf mlm hpN hidsN hnamesN
            hnd.2 htrr
        have hfin : (cfsoLoop (f :: rest) exm p path cache inc st).2.2
            = (cfsoLoop rest exm p path sub.2.1 inc sub.2.2).2.2 := by
          rw [cfsoLoop_cons]
          simp only [hlk]
        rw [hfin]
        refine ⟨rwf2, rlm2, le_trans hmN rnext2, Δm ++ Δr, ?_, ?_⟩
        · rw [hΔr, hΔm, hfiles2, List.append_assoc]
        · intro g hg
          rcases List.mem_append.1 hg with hg1 | hg1
          · have h1 := hΔmp g hg1
            omega
          · exact hΔrp g hg1

def srcDup : List SrcTree := [SrcTree.node 1 ("X") [], SrcTree.node 2 ("X") []]

def stC4 : DriveSt :=
  { allFiles := [], nextId := 1, tick := 0, timeFn := fun _ => 0, failIds := []
    folderCreateLog := [], recLog := [], copyLog := [] }

/-- C4 counterexample: two sibling source folders both named "X", replicated
into an empty destination folder 0, produce two `createFolder` calls with the
identical (name, parent) pair ("X", 0) — the stale existing-folder map never
learns of the first creation and the folder cache is never read. -/
theorem cfso_duplicate_create_cex :
    (cfso srcDup 0 "" [] true stC4).2.2.folderCreateLog = [("X", 0), ("X", 0)]
    ∧ ¬ (cfso srcDup 0 "" [] true stC4).2.2.folderCreateLog.Nodup := by
  have h : (cfso srcDup 0 "" [] true stC4).2.2.folderCreateLog
      = [("X", 0), ("X", 0)] := by
    simp only [cfso, srcDup, cfsoLoop_cons, cfsoLoop_nil,
      SrcTree.subs, SrcTree.name, SrcTree.id]
    decide
  refine ⟨h, ?_⟩
  rw [h]
  decide

/-- C4 amended: the claim is false as stated — `cfso_duplicate_create_cex`
shows duplicate sibling source names yield two `createFolder` calls for the
same (name, parent) pair, because the pre-fetched existing-folder map is not
refreshed after creations and the source-to-destination folder cache, though
written, is never consulted.  The uniqueness does hold when sibling names are
pairwise distinct at every level of the source tree: on a well-formed drive
with an empty creation log, `createFolderStructureOptimized` never issues two
`createFolder` calls with the same name under the same destination parent. -/
theorem cfso_no_duplicate_creates (subs : List SrcTree) (p : Nat) (path : String)
    (inc : Bool) (st : DriveSt)
    (hwf : stWF st) (hp : p < st.nextId) (hlog : st.folderCreateLog = [])
    (hnd : (subs.map SrcTree.name).Nodup) (htr : ∀ t ∈ subs, treeNodup t) :
    (cfso subs p path [] inc st).2.2.folderCreateLog.Nodup := by
  have hlm : LogMatch st := by
    intro n q
    rw [hlog]
    simp
  have hids : ∀ n j,
      lookupLast ((listFolderChildren p st).map fun g => (g.name, g.id)) n = some j →
      p < j ∧ j < st.nextId := by
    intro n j hnj
    obtain ⟨g, hg, hgn, hgi⟩ := lookupLast_listing _ _ _ hnj
    obtain ⟨hga, hgp, hgf, hgt⟩ := mem_listFolderChildren p st g hg
    obtain ⟨w1, w2, w3⟩ := hwf
    refine ⟨?_, ?_⟩
    · rw [← hgi, ← hgp]
      exact w2 g hga hgf hgt
    · rw [← hgi]
      exact (w1 g hga).1
  have hnames : ∀ t ∈ subs,
      lookupLast ((listFolderChildren p st).map fun g => (g.name, g.id)) t.name
        = none →
      t.name ∉ fNamesAt p st := by
    intro t ht hnone
    have hh : hasName ((listFolderChildren p st).map fun g => (g.name, g.id)) t.name
        = false := by
      simp [hasName, hnone]
    exact not_mem_names_of_hasName_false _ _ hh
  obtain ⟨fwf, flm, _, _⟩ :=
    cfsoLoop_nodup_aux (sizeOf subs) subs
      ((listFolderChildren p st).map fun g => (g.name, g.id)) p path [] inc st
      (le_refl _) hwf hlm hp hids hnames hnd htr
  rw [List.nodup_iff_count_le_one]
  intro a
  obtain ⟨n, q⟩ := a
  have h1 := flm n q
  have hnn : ((listFolderChildren q
      (cfsoLoop subs ((listFolderChildren p st).map fun g => (g.name, g.id))
        p path [] inc st).2.2).map GFile.name).Nodup := fwf.2.2 q
  have h2 := filter_name_length_le_one
    (listFolderChildren q
      (cfsoLoop subs ((listFolderChildren p st).map fun g => (g.name, g.id))
        p path [] inc st).2.2) n hnn
  exact le_trans h1 h2

theorem cfso_no_duplicate_creates_witness :
    (cfso [SrcTree.node 1 ("A") [SrcTree.node 2 ("B") []], SrcTree.node 3 ("C") []]
      0 "" [] true stC4).2.2.folderCreateLog.Nodup := by
  have hB : treeNodup (SrcTree.node 2 ("B") []) := by
    rw [treeNodup_def]
    refine ⟨by simp [SrcTree.subs], ?_⟩
    intro s hs
    simp [SrcTree.subs] at hs
  have hA : treeNodup (SrcTree.node 1 ("A") [SrcTree.node 2 ("B") []]) := by
    rw [treeNodup_def]
    refine ⟨by simp [SrcTree.subs], ?_⟩
    intro s hs
    simp [SrcTree.subs] at hs
    rw [hs]
    exact hB
  have hC : treeNodup (SrcTree.node 3 ("C") []) := by
    rw [treeNodup_def]
    refine ⟨by simp [SrcTree.subs], ?_⟩
    intro s hs
    simp [SrcTree.subs] at hs
  refine cfso_no_duplicate_creates _ 0 "" true stC4 ?_ ?_ ?_ ?_ ?_
  · refine ⟨?_, ?_, ?_⟩
    · intro f hf
      simp [stC4] at hf
    · intro f hf
      simp [stC4] at hf
    · intro q
      simp [fNamesAt, listFolderChildren, stC4]
  · decide
  · rfl
  · decide
  · intro t ht
    rcases List.mem_cons.1 ht with h | h
    · rw [h]
      exact hA
    · rcases List.mem_cons.1 h with h2 | h2
      · rw [h2]
        exact hC
      · simp at h2

end GDriveSync
